import Mathlib

/-!
Verification of the GRIB edition-1/edition-2 codec (rda-dattore/GRIB).

This file gives a shallow embedding, in Lean 4, of the parts of the C source
that the verified properties speak about:

* the bit-packed octet codec `get_bits` (src/unpackgrib1.c, src/unpackgrib2.c)
  and `set_bits` (src/grib1to2.c);
* the GRIB-1 Product Definition Section decoder `unpack_PDS`
  (src/unpackgrib1.c);
* the GRIB-1 Binary Data Section gridpoint loop and the GRIB-2 Data Section
  gridpoint loop (src/unpackgrib1.c `unpack_BDS`, src/unpackgrib2.c
  `unpack_DS` template 0), with IEEE doubles modelled as exact rationals;
* the GRIB-2 Indicator Section decoder (src/unpackgrib2.c `unpack_IS`);
* the level-type translation and the statistical end-time emission of the
  GRIB-1 → GRIB-2 encoder (src/grib1to2.c `pack_PDS`, `add_time`);
* the statistical end-time mapping and the pack-width scan of the
  GRIB-2 → GRIB-1 encoder (src/grib2to1.c `mapStatisticalEndTime`, `main`).

C `int` arithmetic is modelled on `Nat`/`Int` with explicit `% 2 ^ 32`
reductions where the C program can overflow; byte buffers are `List Nat`
with entries below 256; `double` values that the claims treat exactly
(reference value, missing-value sentinel, decoded gridpoints) are modelled
as exact rationals.
-/

namespace GRIB

/-! ### BitStream: get_bits (src/unpackgrib1.c lines 216-269) -/

/-- Complement of a 32-bit mask, as computed by the C expression `~m` on a
32-bit `int` holding `m < 2^32`: all-ones minus `m`. -/
def cmpl32 (m : Nat) : Nat := 2 ^ 32 - 1 - m

/-- The byte-accumulation `while (rshift < 0)` loop of `get_bits`
(src/unpackgrib1.c lines 249-253): each pass adds `buf[wskip] << -rshift`
into the 32-bit accumulator `loc` and advances one byte.  Returns the final
`(wskip, rshift, loc)`. -/
def gbLoop (buf : List Nat) (wskip : Nat) (rshift : Int) (loc : Nat) :
    Nat × Int × Nat :=
  if rshift < 0 then
    gbLoop buf (wskip + 1) (rshift + 8)
      ((loc + buf.getD wskip 0 * 2 ^ (-rshift).toNat) % 2 ^ 32)
  else (wskip, rshift, loc)
termination_by (-rshift).toNat
decreasing_by omega

/-- Embedding of `get_bits(buf, &loc, off, bits)` (src/unpackgrib1.c lines
216-269; the identical function appears in src/unpackgrib2.c lines 386-443
and as `getBits` in src/grib2to1.c).  `loc` is the value the out-parameter
holds before the call: the C function returns without writing it when
`bits == 0`, and exits the process when `bits > 32` (modelled by leaving
`loc` unchanged; no caller in the repository reaches that branch). -/
def get_bits (buf : List Nat) (loc : Nat) (off bits : Nat) : Nat :=
  if bits = 0 then loc
  else if 32 < bits then loc
  else
    let wskip := off / 8
    let rshift : Int := 8 - (off % 8 : Nat) - (bits : Nat)
    let loc1 : Nat :=
      if rshift < 0 then
        let res := gbLoop buf wskip rshift 0
        if res.2.1 ≠ 0 then
          (res.2.2 + ((buf.getD res.1 0 >>> res.2.1.toNat) &&&
            cmpl32 ((255 <<< (8 - res.2.1.toNat)) % 2 ^ 32))) % 2 ^ 32
        else
          (res.2.2 + buf.getD res.1 0) % 2 ^ 32
      else
        buf.getD wskip 0 >>> rshift.toNat
    if bits ≠ 32 then loc1 &&& cmpl32 ((4294967295 <<< bits) % 2 ^ 32) else loc1

/-! ### BitStream: set_bits (src/grib1to2.c lines 39-95) -/

/-- The `while (more > buf_size)` loop of `set_bits` (src/grib1to2.c lines
84-87): each pass lowers `more` by 8 and stores the next full byte of `src`
at `buf[++wskip]`.  Returns the final `(buf, wskip, more)`. -/
def sbLoop (src : Nat) (buf : List Nat) (wskip : Nat) (more : Nat) :
    List Nat × Nat × Nat :=
  if 8 < more then
    sbLoop src
      (buf.set (wskip + 1)
        (((src >>> (more - 8)) &&&
          cmpl32 ((4294967295 <<< (32 - (more - 8))) % 2 ^ 32)) % 256))
      (wskip + 1) (more - 8)
  else (buf, wskip, more)
termination_by more
decreasing_by omega

/-- Embedding of `set_bits(buf, src, off, bits)` (src/grib1to2.c lines 39-95;
the identical function appears as `setBits` in src/grib2to1.c).  Stores of
C `int` expressions into the `unsigned char` buffer are truncations
`% 256`; `bits == 0` is a no-op and `bits > 32` makes the C program exit
(modelled by returning the buffer unchanged; never reached by callers). -/
def set_bits (buf : List Nat) (src : Nat) (off bits : Nat) : List Nat :=
  if bits = 0 then buf
  else if 32 < bits then buf
  else
    let wskip := off / 8
    let bskip := off % 8
    let lclear := bskip + bits
    let rclear := 8 - bskip
    let left : Nat :=
      if rclear ≠ 8 then buf.getD wskip 0 &&& (255 <<< rclear) else 0
    if lclear ≤ 8 then
      let right : Nat :=
        if lclear ≠ 8 then
          buf.getD wskip 0 &&& cmpl32 ((255 <<< (8 - lclear)) % 2 ^ 32)
        else 0
      let v0 : Nat :=
        (if bits ≠ 32 then src &&& cmpl32 ((4294967295 <<< bits) % 2 ^ 32)
         else src) % 256
      buf.set wskip ((left ||| right ||| v0 <<< (rclear - bits)) % 256)
    else
      let more := bits - rclear
      let buf1 := buf.set wskip
        ((left ||| ((src >>> more) &&&
          cmpl32 ((4294967295 <<< (bits - more)) % 2 ^ 32))) % 256)
      let res := sbLoop src buf1 wskip more
      let wskip2 := res.2.1 + 1
      let more2 := 8 - res.2.2
      let right : Nat :=
        if more2 ≠ 8 then
          res.1.getD wskip2 0 &&& cmpl32 ((255 <<< more2) % 2 ^ 32)
        else 0
      res.1.set wskip2 ((right ||| (src % 256) <<< more2) % 256)

/-! ### Calendar: add_time (src/grib1to2.c lines 2054-2110) -/

/-- February length under the Gregorian leap rule used at src/grib1to2.c
lines 2087-2092 and 2099-2104. -/
def febDays (yr : Nat) : Nat :=
  if yr % 4 = 0 ∧ (yr % 100 ≠ 0 ∨ yr % 400 = 0) then 29 else 28

/-- The `mdays` array (src/grib1to2.c line 2054) with February already set
for the current year. -/
def mdaysArr (feb : Nat) : List Nat :=
  [0, 31, feb, 31, 30, 31, 30, 31, 31, 30, 31, 30, 31]

theorem febDays_ge {yr : Nat} : 28 ≤ febDays yr := by
  unfold febDays; split <;> omega

theorem mdaysArr_getD_ge (yr : Nat) {mo : Nat} (h1 : 1 ≤ mo) (h2 : mo ≤ 12) :
    28 ≤ (mdaysArr (febDays yr)).getD mo 0 := by
  have := @febDays_ge yr
  interval_cases mo <;> simp [mdaysArr] <;> omega

theorem mdaysArr_getD_oob {feb mo : Nat} (h : mo = 0 ∨ 13 ≤ mo) :
    (mdaysArr feb).getD mo 0 = 0 := by
  rcases h with h | h
  · subst h; simp [mdaysArr]
  · apply List.getD_eq_default
    simp only [mdaysArr, List.length_cons, List.length_nil]
    omega

/-- The `while (*dy > mdays[*mo])` month-rollover loop of `add_time`
(src/grib1to2.c lines 2093-2106).  The C code refreshes the global
`mdays[2]` from the current year before the loop and again whenever the
year is incremented; since February's length depends only on the current
year, recomputing it from `yr` at each pass is the same function. -/
def dayLoop (yr mo dy : Nat) : Nat × Nat × Nat :=
  if h : (mdaysArr (febDays yr)).getD mo 0 < dy then
    if 12 < mo + 1 then
      dayLoop (yr + 1) 1 (dy - (mdaysArr (febDays yr)).getD mo 0)
    else
      dayLoop yr (mo + 1) (dy - (mdaysArr (febDays yr)).getD mo 0)
  else (yr, mo, dy)
termination_by dy * 2 + (1 - min mo 1) + mo / 13
decreasing_by
  · by_cases hmo : mo = 12
    · subst hmo
      have : (mdaysArr (febDays yr)).getD 12 0 = 31 := by simp [mdaysArr]
      omega
    · have hmo13 : 13 ≤ mo := by omega
      have := @mdaysArr_getD_oob (febDays yr) mo (Or.inr hmo13)
      omega
  · by_cases hmo : mo = 0
    · subst hmo
      have := @mdaysArr_getD_oob (febDays yr) 0 (Or.inl rfl)
      omega
    · have h1 : 1 ≤ mo := by omega
      have := mdaysArr_getD_ge yr h1 (by omega)
      omega

/-- Embedding of `add_time(time_to_add, time_units, &yr, &mo, &dy, &time)`
(src/grib1to2.c lines 2055-2110).  `time` is the packed `HHMM` value.  The
C function exits the process for units other than 0 (minutes), 1 (hours)
and 2 (days); that fatal branch is `none`. -/
def add_time (time_to_add time_units yr mo dy time : Nat) :
    Option (Nat × Nat × Nat × Nat) :=
  let hr := time / 100
  let mn := time % 100
  let mn' : Option Nat :=
    match time_units with
    | 0 => some (mn + time_to_add)
    | 1 => some (mn + time_to_add * 60)
    | 2 => some (mn + time_to_add * 1440)
    | _ => none
  match mn' with
  | none => none
  | some m =>
    if 60 ≤ m then
      let hr1 := hr + m / 60
      let m1 := m % 60
      if 24 ≤ hr1 then
        let dy1 := dy + hr1 / 24
        let hr2 := hr1 % 24
        let r := dayLoop yr mo dy1
        some (r.1, r.2.1, r.2.2, hr2 * 100 + m1)
      else some (yr, mo, dy, hr1 * 100 + m1)
    else some (yr, mo, dy, hr * 100 + mn)

/-! ### Decoder1: unpack_PDS (src/unpackgrib1.c lines 396-542)

Only the edition-1 path is embedded (`ed_num == 1`, PDS at bit offset 64);
the PDS-extension bookkeeping at lines 515-541 affects no decoded field
and is omitted. -/

structure PDS where
  pds_len : Nat
  table_ver : Nat
  center_id : Nat
  gen_proc : Nat
  grid_type : Nat
  gds_included : Nat
  bms_included : Nat
  param : Nat
  level_type : Nat
  lvl1 : Nat
  lvl2 : Nat
  yr : Int
  mo : Nat
  dy : Nat
  time : Nat
  fcst_units : Nat
  p1 : Nat
  p2 : Nat
  t_range : Nat
  navg : Nat
  nmiss : Nat
  sub_center_id : Nat
  D : Int
deriving Repr, DecidableEq

/-- Embedding of `unpack_PDS` for an edition-1 message (src/unpackgrib1.c
lines 396-514).  Note that the source selects whether the
number-in-average field is read from octets 22-23 by a `switch` on
`grib_msg->p2` (line 472), not on the time-range indicator. -/
def unpack_PDS (buf : List Nat) : PDS :=
  let off := 64
  let pds_len := get_bits buf 0 off 24
  let table_ver := get_bits buf 0 (off + 24) 8
  let center_id := get_bits buf 0 (off + 32) 8
  let gen_proc := get_bits buf 0 (off + 40) 8
  let grid_type := get_bits buf 0 (off + 48) 8
  let flag := get_bits buf 0 (off + 56) 8
  let gds_included := if flag &&& 128 = 128 then 1 else 0
  let bms_included := if flag &&& 64 = 64 then 1 else 0
  let param := get_bits buf 0 (off + 64) 8
  let level_type := get_bits buf 0 (off + 72) 8
  let wide : Bool :=
    level_type = 100 ∨ level_type = 103 ∨ level_type = 105 ∨
    level_type = 107 ∨ level_type = 109 ∨ level_type = 111 ∨
    level_type = 113 ∨ level_type = 115 ∨ level_type = 125 ∨
    level_type = 160 ∨ level_type = 200 ∨ level_type = 201
  let lvl1 := if wide then get_bits buf 0 (off + 80) 16
              else get_bits buf 0 (off + 80) 8
  let lvl2 := if wide then 0 else get_bits buf 0 (off + 88) 8
  let yr0 := get_bits buf 0 (off + 96) 8
  let mo := get_bits buf 0 (off + 104) 8
  let dy := get_bits buf 0 (off + 112) 8
  let hr := get_bits buf 0 (off + 120) 8
  let mn := get_bits buf 0 (off + 128) 8
  let time := hr * 100 + mn
  let fcst_units := get_bits buf 0 (off + 136) 8
  let p1 := get_bits buf 0 (off + 144) 8
  let p2 := get_bits buf 0 (off + 152) 8
  let t_range := get_bits buf 0 (off + 160) 8
  let navg :=
    if p2 = 3 ∨ p2 = 4 ∨ p2 = 51 ∨ p2 = 113 ∨ p2 = 114 ∨ p2 = 115 ∨
       p2 = 116 ∨ p2 = 117 ∨ p2 = 123 ∨ p2 = 124
    then get_bits buf 0 (off + 168) 16
    else 0
  let nmiss := get_bits buf 0 (off + 184) 8
  let cent := get_bits buf 0 (off + 192) 8
  let yr : Int := (yr0 : Int) + ((cent : Int) - 1) * 100
  let sub_center_id := get_bits buf 0 (off + 200) 8
  let dsign := get_bits buf 0 (off + 208) 1
  let dmag := get_bits buf 0 (off + 209) 15
  let D : Int := if dsign = 1 then -(dmag : Int) else (dmag : Int)
  { pds_len := pds_len, table_ver := table_ver, center_id := center_id,
    gen_proc := gen_proc, grid_type := grid_type,
    gds_included := gds_included, bms_included := bms_included,
    param := param, level_type := level_type, lvl1 := lvl1, lvl2 := lvl2,
    yr := yr, mo := mo, dy := dy, time := time, fcst_units := fcst_units,
    p1 := p1, p2 := p2, t_range := t_range, navg := navg, nmiss := nmiss,
    sub_center_id := sub_center_id, D := D }

/-! ### Decoder2: unpack_IS (src/unpackgrib2.c lines 454-546) -/

structure IndicatorSec2 where
  disc : Nat
  ed_num : Nat
  total_len : Nat
deriving Repr, DecidableEq

/-- Embedding of the field extraction of the GRIB-2 `unpack_IS`
(src/unpackgrib2.c lines 521-523) from the 16-byte Indicator Section:
discipline, edition, and `get_bits(temp, &total_len, 96, 32)` — the
total-length read covers only bit offsets 96-127, the low half of the
64-bit length field occupying bit offsets 64-127. -/
def unpack_IS2 (temp : List Nat) : IndicatorSec2 :=
  { disc := get_bits temp 0 48 8,
    ed_num := get_bits temp 0 56 8,
    total_len := get_bits temp 0 96 32 }

/-- The full 64-bit total-length field of the GRIB-2 Indicator Section,
bytes 8-15 big-endian (what the wire format declares, independently of
what the decoder reads). -/
def indicatorLen64 (temp : List Nat) : Nat :=
  get_bits temp 0 64 32 * 2 ^ 32 + get_bits temp 0 96 32

/-! ### Gridpoint loops, with doubles as exact rationals -/

/-- The missing-value sentinel `GRIB_MISSING_VALUE = 1.e30`
(src/unpackgrib1.c line 191, src/unpackgrib2.c line 178). -/
def GRIB_MISSING_VALUE : ℚ := 10 ^ 30

/-- Embedding of `ibm2real(buf, off)` (src/unpackgrib1.c lines 271-282):
sign bit, 7-bit excess-64 hexadecimal exponent, 24-bit fraction. -/
def ibm2real (buf : List Nat) (off : Nat) : ℚ :=
  let sign := get_bits buf 0 off 1
  let e : Int := (get_bits buf 0 (off + 1) 7 : Int) - 64
  let fr := get_bits buf 0 (off + 8) 24
  let native : ℚ := (2 : ℚ) ^ (-24 : Int) * (fr : ℚ) * (16 : ℚ) ^ e
  if sign = 1 then -native else native

/-- The gridpoint loop of the GRIB-1 `unpack_BDS` (src/unpackgrib1.c lines
841-856): `k` points remain, `bcnt`/`pcnt` are the bitmap and packed-value
cursors.  `packed = none` is the constant-field case (`packed == NULL`):
the point gets the reference value.  The bitmap cursor advances exactly
when `bitmap_len > 0`, mirroring the `bitmap[bcnt++]` inside the
short-circuit condition at line 844. -/
def bdsPoints (bitmap : List Nat) (packed : Option (List Nat))
    (ref e d : ℚ) : Nat → Nat → Nat → List ℚ
  | 0, _, _ => []
  | k + 1, bcnt, pcnt =>
    if bitmap.length = 0 ∨ bitmap.getD bcnt 0 = 1 then
      match packed with
      | none =>
        ref :: bdsPoints bitmap none ref e d k
          (bcnt + if bitmap.length = 0 then 0 else 1) pcnt
      | some ps =>
        (ref + (ps.getD pcnt 0 : ℚ) * e / d) ::
          bdsPoints bitmap (some ps) ref e d k
            (bcnt + if bitmap.length = 0 then 0 else 1) (pcnt + 1)
    else
      GRIB_MISSING_VALUE :: bdsPoints bitmap packed ref e d k (bcnt + 1) pcnt

/-- Embedding of the simple-packing path of `unpack_BDS` (src/unpackgrib1.c
lines 771-884) for the recognized grid representations: header fields are
read from the buffer at the section offset `off`, the packed values are
the `num_packed` fields of `pack_width` bits starting at bit 88 of the
section (after the one-field skip for grid types 23/24/26/63/64 on lat-lon
representations, line 817), and the gridpoints come from the loop above.
With `pack_width == 0` the source never allocates `packed` (line 798), so
the loop runs with `packed = none`. -/
def unpack_BDS (buf : List Nat) (off : Nat) (D : Int) (data_rep grid_type : Nat)
    (bitmap : List Nat) (num_points : Nat) : List ℚ :=
  let bds_len := get_bits buf 0 off 24
  let ub := get_bits buf 0 (off + 28) 4
  let pack_width := get_bits buf 0 (off + 80) 8
  let esign := get_bits buf 0 (off + 32) 1
  let emag := get_bits buf 0 (off + 33) 15
  let E : Int := if esign = 1 then -(emag : Int) else (emag : Int)
  let e : ℚ := (2 : ℚ) ^ E
  let d : ℚ := (10 : ℚ) ^ D
  let ref_val : ℚ := ibm2real buf (off + 48) / d
  let skip :=
    if (data_rep = 0 ∨ data_rep = 4 ∨ data_rep = 10) ∧
       (grid_type = 23 ∨ grid_type = 24 ∨ grid_type = 26 ∨
        grid_type = 63 ∨ grid_type = 64)
    then pack_width else 0
  let packed : Option (List Nat) :=
    if 0 < pack_width then
      some ((List.range ((bds_len * 8 - 88 - ub) / pack_width)).map fun n =>
        get_bits buf 0 (off + 88 + skip + n * pack_width) pack_width)
    else none
  bdsPoints bitmap packed ref_val e d num_points 0 0

/-- The gridpoint loop of the GRIB-2 `unpack_DS` under DRS template 0
(src/unpackgrib2.c lines 1159-1169): `k` points remain, `n` is the
absolute gridpoint index, `off` the bit cursor into the Data Section.
A present point reads `w` bits at `off` and advances the cursor; a
bitmapped-out point is set to the sentinel without reading. -/
def dsPoints (buf : List Nat) (bitmap : Option (List Nat)) (R e d : ℚ)
    (w : Nat) : Nat → Nat → Nat → List ℚ
  | 0, _, _ => []
  | k + 1, n, off =>
    if bitmap = none ∨ (bitmap.getD []).getD n 0 = 1 then
      (R + (get_bits buf 0 off w : ℚ) * e / d) ::
        dsPoints buf bitmap R e d w k (n + 1) (off + w)
    else
      GRIB_MISSING_VALUE :: dsPoints buf bitmap R e d w k (n + 1) off

/-! ### Encoder2 (GRIB-1 → GRIB-2, src/grib1to2.c) -/

/-- Section 4 template selection in `pack_PDS` (src/grib1to2.c lines
2115-2137): template 0 for time ranges 0/1/10, template 8 for 2/3/4,
fatal (`none`) otherwise. -/
def pds_template (t_range : Nat) : Option Nat :=
  match t_range with
  | 0 => some 0
  | 1 => some 0
  | 10 => some 0
  | 2 => some 8
  | 3 => some 8
  | 4 => some 8
  | _ => none

structure LevelMap where
  lvl1_type : Nat
  lvl2_type : Nat
  lvl1_scale : Int
  lvl2_scale : Int
  lvl1_value : Int
  lvl2_value : Int
deriving Repr, DecidableEq

/-- The GRIB-1 → GRIB-2 level-type translation of `pack_PDS`
(src/grib1to2.c lines 2186-2334).  The defaults before the `switch` are
`lvl1_type = level_type, lvl2_type = 255, lvl1_scale = 0,
lvl2_scale = 255` with both values passed through.  The `case 104:` block
(lines 2212-2216) carries no `break`, so after setting types 102/102 and
scales −2/−2 execution continues into `case 105:`, which overwrites
`lvl1_type` with 103; the embedding reproduces that fallthrough. -/
def mapLevel (level_type : Nat) (lvl1 lvl2 : Int) : LevelMap :=
  -- fields in order: lvl1_type, lvl2_type, lvl1_scale, lvl2_scale,
  -- lvl1_value, lvl2_value
  let base : LevelMap := ⟨level_type, 255, 0, 255, lvl1, lvl2⟩
  match level_type with
  | 20 => ⟨base.lvl1_type, base.lvl2_type, -2, base.lvl2_scale, lvl1, lvl2⟩
  | 100 => ⟨base.lvl1_type, base.lvl2_type, -2, base.lvl2_scale, lvl1, lvl2⟩
  | 101 => ⟨100, 100, -3, -3, lvl1, lvl2⟩
  | 102 => ⟨101, base.lvl2_type, base.lvl1_scale, base.lvl2_scale, lvl1, lvl2⟩
  | 103 => ⟨102, base.lvl2_type, base.lvl1_scale, base.lvl2_scale, lvl1, lvl2⟩
  | 104 =>
    -- case 104 has no break: after 102/102 and -2/-2, the case-105 body
    -- `lvl1_type = 103` runs as well
    let after104 : LevelMap := ⟨102, 102, -2, -2, lvl1, lvl2⟩
    ⟨103, after104.lvl2_type, after104.lvl1_scale, after104.lvl2_scale,
      after104.lvl1_value, after104.lvl2_value⟩
  | 105 => ⟨103, base.lvl2_type, base.lvl1_scale, base.lvl2_scale, lvl1, lvl2⟩
  | 106 => ⟨103, 103, -2, -2, lvl1, lvl2⟩
  | 107 => ⟨104, base.lvl2_type, 4, base.lvl2_scale, lvl1, lvl2⟩
  | 108 => ⟨104, 104, 2, 2, lvl1, lvl2⟩
  | 109 => ⟨105, base.lvl2_type, base.lvl1_scale, base.lvl2_scale, lvl1, lvl2⟩
  | 110 => ⟨105, 105, base.lvl1_scale, base.lvl2_scale, lvl1, lvl2⟩
  | 111 => ⟨106, base.lvl2_type, 2, base.lvl2_scale, lvl1, lvl2⟩
  | 112 => ⟨106, 106, 2, 2, lvl1, lvl2⟩
  | 113 => ⟨107, base.lvl2_type, base.lvl1_scale, base.lvl2_scale, lvl1, lvl2⟩
  | 114 => ⟨107, 107, base.lvl1_scale, base.lvl2_scale, 475 - lvl1, 475 - lvl2⟩
  | 115 => ⟨108, base.lvl2_type, -2, base.lvl2_scale, lvl1, lvl2⟩
  | 116 => ⟨108, 108, -2, -2, lvl1, lvl2⟩
  | 117 => ⟨109, base.lvl2_type, 9, base.lvl2_scale, lvl1, lvl2⟩
  | 119 => ⟨111, base.lvl2_type, 4, base.lvl2_scale, lvl1, lvl2⟩
  | 120 => ⟨111, 111, 2, 2, lvl1, lvl2⟩
  | 121 => ⟨100, 100, -2, -2, 1100 - lvl1, 1100 - lvl2⟩
  | 125 => ⟨103, base.lvl2_type, 2, base.lvl2_scale, lvl1, lvl2⟩
  | 128 => ⟨104, 104, 3, 3, 1100 - lvl1, 1100 - lvl2⟩
  | 141 => ⟨100, 100, -3, -2, lvl1, 1100 - lvl2⟩
  | _ => base

/-- The overall end time emitted by `pack_PDS` into a template-8 PDS
(src/grib1to2.c lines 2353-2367): `add_time(msg->p2, msg->fcst_units, ...)`
on the reference time, then year, month, day, `time/100` as the hour,
`time % 100` as the minute, and 0 as the second. -/
def pack_PDS_end_time (p2 fcst_units yr mo dy time : Nat) :
    Option (Nat × Nat × Nat × Nat × Nat × Nat) :=
  match add_time p2 fcst_units yr mo dy time with
  | none => none
  | some (y, m, d, t) => some (y, m, d, t / 100, t % 100, 0)

/-! ### Encoder1 (GRIB-2 → GRIB-1, src/grib2to1.c) -/

/-- Embedding of `mapStatisticalEndTime` (src/grib2to1.c lines 2100-2117).
`etime` is the statistical-overall-end time of the grid as an `HHMMSS`
integer and `eyr`/`emo`/`edy` its date; `ryr`/`rmo`/`rdy`/`rtime` are the
message reference date and `HHMMSS` time.  Units other than 0-4 make the
C program exit (`none`). -/
def mapStatisticalEndTime (time_unit : Nat) (eyr emo edy etime : Nat)
    (ryr rmo rdy rtime : Nat) : Option Int :=
  match time_unit with
  | 0 => some ((etime / 100 % 100 : Int) - (rtime / 100 % 100 : Int))
  | 1 => some ((etime / 10000 : Int) - (rtime / 10000 : Int))
  | 2 => some ((edy : Int) - (rdy : Int))
  | 3 => some ((emo : Int) - (rmo : Int))
  | 4 => some ((eyr : Int) - (ryr : Int))
  | _ => none

/-- Rounding to the nearest integer, half away from zero: the behaviour of
C `lround` (src/grib2to1.c line 2771). -/
def lroundQ (q : ℚ) : Int :=
  if 0 ≤ q then ⌊q + 1 / 2⌋ else -⌊-q + 1 / 2⌋

/-- The packed value the GRIB-2 → GRIB-1 encoder computes for a non-missing
gridpoint `p` (src/grib2to1.c line 2771):
`lround((p − R) * 10^D / 2^E)`. -/
def packedValue (p R : ℚ) (D E : Int) : Int :=
  lroundQ ((p - R) * (10 : ℚ) ^ D / (2 : ℚ) ^ E)

/-- The `max_pack` scan of the encoder main loop (src/grib2to1.c lines
2763-2777): over the non-missing gridpoints, in order, each packed value
is compared with the running `size_t` maximum.  The comparison
`pvals[cnt] > max_pack` converts the C `int` to `size_t`, i.e. reduces it
modulo 2^64 first. -/
def maxPackScan (gps : List ℚ) (R : ℚ) (D E : Int) : Nat :=
  gps.foldl
    (fun mp p =>
      if p ≠ GRIB_MISSING_VALUE then
        let u := ((packedValue p R D E) % (2 ^ 64 : Int)).toNat
        if mp < u then u else mp
      else mp)
    0

/-- The pack-width search loop (src/grib2to1.c lines 2778-2781):
`pack_width` starts at 1 and grows while `2^pack_width − 1 < max_pack`. -/
def packWidthLoop (max_pack w : Nat) : Nat :=
  if 2 ^ w - 1 < max_pack then packWidthLoop max_pack (w + 1) else w
termination_by max_pack + 1 - w
decreasing_by
  have : w < 2 ^ w := Nat.lt_two_pow w
  omega

/-- The pack width chosen by the GRIB-2 → GRIB-1 encoder for a grid
(src/grib2to1.c lines 2762-2781). -/
def encoderPackWidth (gps : List ℚ) (R : ℚ) (D E : Int) : Nat :=
  packWidthLoop (maxPackScan gps R D E) 1

/-! ### Concrete message fragments used by the counterexamples -/

/-- An edition-1 message prefix: 8-byte Indicator Section followed by a
28-octet PDS with time-range indicator 3 (average), P1 = 0, P2 = 6, and
number-in-average octets 22-23 holding the value 5. -/
def pdsBufA : List Nat :=
  [71, 82, 73, 66, 0, 0, 64, 1,
   0, 0, 28, 3, 7, 96, 255, 128, 61, 1, 0, 0,
   17, 7, 10, 6, 0, 1, 0, 6, 3, 0, 5, 0, 21, 0, 0, 0]

/-- The same message as `pdsBufA` except that P2 = 3 and the time-range
indicator is 0 (instantaneous product, not an average). -/
def pdsBufB : List Nat :=
  [71, 82, 73, 66, 0, 0, 64, 1,
   0, 0, 28, 3, 7, 96, 255, 128, 61, 1, 0, 0,
   17, 7, 10, 6, 0, 1, 0, 3, 0, 0, 5, 0, 21, 0, 0, 0]

/-- A 16-byte GRIB-2 Indicator Section whose 64-bit length field is 100
(high word 0). -/
def indBufA : List Nat :=
  [71, 82, 73, 66, 0, 0, 0, 2, 0, 0, 0, 0, 0, 0, 0, 100]

/-- A 16-byte GRIB-2 Indicator Section whose 64-bit length field is
2^32 + 100: same low word as `indBufA`, different high word. -/
def indBufB : List Nat :=
  [71, 82, 73, 66, 0, 0, 0, 2, 0, 0, 0, 1, 0, 0, 0, 100]

/-! ### Bit-level specification views of the byte buffer -/

/-- Bit `k` of a byte buffer, counting MSB-first within each byte and
MSB-first across bytes: the bit order of the GRIB octet stream. -/
def bufBit (buf : List Nat) (k : Nat) : Bool :=
  Nat.testBit (buf.getD (k / 8) 0) (7 - k % 8)

/-- The big-endian value of the `b`-bit window starting at bit offset
`off` of the buffer. -/
def winVal (buf : List Nat) (off : Nat) : Nat → Nat
  | 0 => 0
  | b + 1 => winVal buf off b * 2 + (bufBit buf (off + b)).toNat

/-- A single window for the BitStream round-trip statement: `src` is the
value written, at bit offset `off`, in a field of `bits` bits. -/
structure BitField where
  src : Nat
  off : Nat
  bits : Nat
deriving Repr, DecidableEq

/-- Apply a sequence of `set_bits` writes to a buffer, in order. -/
def applyWrites (buf : List Nat) (ws : List BitField) : List Nat :=
  ws.foldl (fun b w => set_bits b w.src w.off w.bits) buf

/-- Two bit windows occupy disjoint bit ranges. -/
def disjointWins (w₁ w₂ : BitField) : Prop :=
  w₁.off + w₁.bits ≤ w₂.off ∨ w₂.off + w₂.bits ≤ w₁.off

/-! ## Claim C9: Gregorian leap-year rules in add_time -/

/-- C9: `add_time` applies Gregorian leap-year rules at month and year
boundaries: 2020-02-28 1200 plus 48 hours is 2020-03-01 1200 (2020 is a
leap year), while 2100-02-28 1200 plus 48 hours is 2100-03-02 1200
(2100 is not a leap year). -/
theorem add_time_gregorian_leap_rolls :
    add_time 48 1 2020 2 28 1200 = some (2020, 3, 1, 1200) ∧
    add_time 48 1 2100 2 28 1200 = some (2100, 3, 2, 1200) := by
  constructor <;> simp [add_time, dayLoop, mdaysArr, febDays]

/-! ## Claim C8: template-8 overall end time -/

/-- C8: a GRIB-1 time range in \x7b2,3,4\x7d selects PDS template 8, whose
overall end time is exactly the reference time advanced by P2 forecast-time
units through the calendar addition `add_time`; in particular for
yr = 2017, mo = 7, dy = 10, time 0600, hour units and P2 = 48 the emitted
end time is 2017-07-12 06:00:00. -/
theorem pack_PDS_template8_end_time :
    pds_template 3 = some 8 ∧
    (∀ p2 u yr mo dy t, pack_PDS_end_time p2 u yr mo dy t =
      (add_time p2 u yr mo dy t).map
        (fun r => (r.1, r.2.1, r.2.2.1, r.2.2.2 / 100, r.2.2.2 % 100, 0))) ∧
    pack_PDS_end_time 48 1 2017 7 10 600 = some (2017, 7, 12, 6, 0, 0) := by
  refine ⟨rfl, ?_, ?_⟩
  · intro p2 u yr mo dy t
    unfold pack_PDS_end_time
    cases h : add_time p2 u yr mo dy t with
    | none => simp
    | some r => obtain ⟨y, m, d, tt⟩ := r; simp
  · simp [pack_PDS_end_time, add_time, dayLoop, mdaysArr, febDays]

/-! ## Claim C2: level type 104 in the GRIB-1 → GRIB-2 encoder -/

/-- C2 (refuting the claim): for level type 104 the encoder's level
translation emits first-surface type 103, not 102, because the `case 104:`
block falls through into `case 105:`; the second-surface type stays 102
and both scale factors stay −2, and the level values are unchanged. -/
theorem mapLevel_104_falls_through :
    ∀ v1 v2 : Int, mapLevel 104 v1 v2 = ⟨103, 102, -2, -2, v1, v2⟩ := by
  intro v1 v2; rfl

/-! ## Claim C10: P2 for hour-unit statistical products -/

/-- C10: `mapStatisticalEndTime` with time unit 1 (hours) returns the
hour-of-day of the overall end time minus the hour-of-day of the reference
time; the end date (day, month, year) does not enter the result, whatever
the length of the interval. -/
theorem mapStatisticalEndTime_hours_ignores_date :
    ∀ eyr emo edy etime eyr' emo' edy' ryr rmo rdy rtime : Nat,
      mapStatisticalEndTime 1 eyr emo edy etime ryr rmo rdy rtime =
        some ((etime / 10000 : Int) - (rtime / 10000 : Int)) ∧
      mapStatisticalEndTime 1 eyr emo edy etime ryr rmo rdy rtime =
        mapStatisticalEndTime 1 eyr' emo' edy' etime ryr rmo rdy rtime ∧
      (∀ ehh er rhh rr : Nat, er < 10000 → rr < 10000 →
        mapStatisticalEndTime 1 eyr emo edy (ehh * 10000 + er)
          ryr rmo rdy (rhh * 10000 + rr) = some ((ehh : Int) - (rhh : Int))) := by
  intro eyr emo edy etime eyr' emo' edy' ryr rmo rdy rtime
  refine ⟨rfl, rfl, ?_⟩
  intro ehh er rhh rr he hr
  simp only [mapStatisticalEndTime, Option.some.injEq]
  push_cast
  omega

/-- Witness for C10 at a concrete input: an end time 06:00:00 two days
after a reference time 06:00:00 yields P2 = 0. -/
theorem mapStatisticalEndTime_hours_witness :
    mapStatisticalEndTime 1 2017 7 12 (6 * 10000 + 0) 2017 7 10
      (6 * 10000 + 0) = some ((6 : Int) - (6 : Int)) :=
  ((mapStatisticalEndTime_hours_ignores_date 2017 7 12 60000 2017 7 12
    2017 7 10 60000).2.2) 6 0 6 0 (by norm_num) (by norm_num)

/-! ## Claim C6: encoder pack-width minimality -/

theorem packWidthLoop_spec (m w : Nat) :
    m ≤ 2 ^ (packWidthLoop m w) - 1 ∧ w ≤ packWidthLoop m w ∧
    ∀ v, w ≤ v → m ≤ 2 ^ v - 1 → packWidthLoop m w ≤ v := by
  induction w using packWidthLoop.induct with
  | max_pack => exact m
  | case1 w hlt ih =>
    rw [packWidthLoop, if_pos hlt]
    refine ⟨ih.1, by omega, ?_⟩
    intro v hv hm
    have hvw : w ≠ v := by
      rintro rfl; omega
    exact ih.2.2 v (by omega) hm
  | case2 w hlt =>
    rw [packWidthLoop, if_neg hlt]
    exact ⟨by omega, le_refl w, fun v hv _ => hv⟩

/-- C6 (refuting the claim): on the constant two-point grid with value
273.15 = R, every packed value is 0, so `max_pack = 0`; the chosen pack
width is 1 even though width 0 already satisfies `2^0 − 1 ≥ max_pack`, so
the chosen width is not the smallest such integer. -/
theorem encoderPackWidth_not_minimal_at_zero :
    encoderPackWidth [(5463 : ℚ) / 20, (5463 : ℚ) / 20] ((5463 : ℚ) / 20)
      0 0 = 1 ∧
    maxPackScan [(5463 : ℚ) / 20, (5463 : ℚ) / 20] ((5463 : ℚ) / 20)
      0 0 ≤ 2 ^ 0 - 1 := by
  have h : maxPackScan [(5463 : ℚ) / 20, (5463 : ℚ) / 20] ((5463 : ℚ) / 20)
      0 0 = 0 := by
    norm_num [maxPackScan, packedValue, lroundQ, GRIB_MISSING_VALUE]
  refine ⟨?_, by omega⟩
  rw [encoderPackWidth, h, packWidthLoop, packWidthLoop]
  norm_num

/-- C6 (amended): the chosen pack width is the smallest integer at least 1
with `2^w − 1 ≥ max_pack`; every packed value fits, but when the maximum
packed value is 0 the chosen width is 1 although 0 bits would suffice. -/
theorem encoderPackWidth_minimal_from_one :
    ∀ (gps : List ℚ) (R : ℚ) (D E : Int),
      maxPackScan gps R D E ≤ 2 ^ encoderPackWidth gps R D E - 1 ∧
      1 ≤ encoderPackWidth gps R D E ∧
      ∀ v, 1 ≤ v → maxPackScan gps R D E ≤ 2 ^ v - 1 →
        encoderPackWidth gps R D E ≤ v := by
  intro gps R D E
  exact packWidthLoop_spec (maxPackScan gps R D E) 1

/-- Witness for the amended C6 at a concrete grid: a two-point grid with
values 0 and 3 above R = 0 needs and gets pack width 2. -/
theorem encoderPackWidth_minimal_witness :
    maxPackScan [(0 : ℚ), 3] 0 0 0 ≤
      2 ^ encoderPackWidth [(0 : ℚ), 3] 0 0 0 - 1 ∧
    encoderPackWidth [(0 : ℚ), 3] 0 0 0 ≤ 2 :=
  ⟨(encoderPackWidth_minimal_from_one [(0 : ℚ), 3] 0 0 0).1,
   (encoderPackWidth_minimal_from_one [(0 : ℚ), 3] 0 0 0).2.2 2
     (by norm_num)
     (by norm_num [maxPackScan, packedValue, lroundQ, GRIB_MISSING_VALUE])⟩

/-! ## Claim C1: number-in-average gating in the GRIB-1 PDS decoder -/

/-- C1 (showing the divergence): the decoder selects whether to read
octets 22-23 by the value of P2, not by the time-range indicator.  In
`pdsBufA` the time-range indicator is 3 (an average) and octets 22-23
hold 5, yet since P2 = 6 the decoder sets `navg = 0`; in `pdsBufB` the
time-range indicator is 0 (no average) yet since P2 = 3 the decoder reads
`navg = 5` from the octets. -/
theorem unpack_PDS_navg_gated_on_p2 :
    (unpack_PDS pdsBufA).t_range = 3 ∧ (unpack_PDS pdsBufA).navg = 0 ∧
    get_bits pdsBufA 0 (64 + 168) 16 = 5 ∧
    (unpack_PDS pdsBufB).t_range = 0 ∧ (unpack_PDS pdsBufB).navg = 5 := by
  refine ⟨?_, ?_, ?_, ?_, ?_⟩ <;>
    simp [unpack_PDS, pdsBufA, pdsBufB, get_bits, gbLoop, cmpl32] <;> decide

/-! ## Claim C3: GRIB-2 total message length read -/

/-- C3 (refuting the claim): two Indicator Sections whose 64-bit length
fields differ only in the high 32 bits decode to the same total length,
because `unpack_IS` reads only the 32 bits at bit offset 96. -/
theorem unpack_IS2_len_counterexample :
    (unpack_IS2 indBufA).total_len = (unpack_IS2 indBufB).total_len ∧
    indicatorLen64 indBufA ≠ indicatorLen64 indBufB := by
  constructor <;>
    simp [unpack_IS2, indicatorLen64, indBufA, indBufB, get_bits, gbLoop,
      cmpl32] <;> decide

/-- C3 (amended): the decoded total length depends only on bytes 12-15 of
the Indicator Section (the low 32 bits of the 64-bit length field); any two
sections that agree there decode to the same total length. -/
theorem unpack_IS2_total_len_ignores_high_word :
    ∀ t1 t2 : List Nat,
      t1.getD 12 0 = t2.getD 12 0 → t1.getD 13 0 = t2.getD 13 0 →
      t1.getD 14 0 = t2.getD 14 0 → t1.getD 15 0 = t2.getD 15 0 →
      (unpack_IS2 t1).total_len = (unpack_IS2 t2).total_len := by
  intro t1 t2 h12 h13 h14 h15
  simp only [List.getD, List.get?_eq_getElem?] at h12 h13 h14 h15
  simp [unpack_IS2, get_bits, gbLoop, cmpl32, h12, h13, h14, h15]

/-- Witness for the amended C3: the two concrete Indicator Sections agree
on bytes 12-15 and decode to the same total length. -/
theorem unpack_IS2_total_len_witness :
    (unpack_IS2 indBufA).total_len = (unpack_IS2 indBufB).total_len :=
  unpack_IS2_total_len_ignores_high_word indBufA indBufB rfl rfl rfl rfl

/-! ## Claims C4 and C7: the bitmap law in the gridpoint loops -/

theorem countP_take_succ {bm : List Nat} {bcnt : Nat} (j : Nat)
    (h : bcnt < bm.length) (p : Nat → Bool) :
    ((bm.drop bcnt).take (j + 1)).countP p =
      ((bm.drop (bcnt + 1)).take j).countP p +
        if p (bm.getD bcnt 0) then 1 else 0 := by
  rw [List.drop_eq_getElem_cons h, List.take_succ_cons, List.countP_cons,
    List.getD_eq_getElem bm 0 h]

theorem bdsPoints_step_some (bm ps : List Nat) (ref e d : ℚ)
    (k bcnt pcnt : Nat) (hbm : bm.length ≠ 0) :
    bdsPoints bm (some ps) ref e d (k + 1) bcnt pcnt =
      (if bm.getD bcnt 0 = 1 then ref + (ps.getD pcnt 0 : ℚ) * e / d
       else GRIB_MISSING_VALUE) ::
      bdsPoints bm (some ps) ref e d k (bcnt + 1)
        (if bm.getD bcnt 0 = 1 then pcnt + 1 else pcnt) := by
  rw [bdsPoints]
  by_cases hc : bm.getD bcnt 0 = 1
  · rw [if_pos (Or.inr hc), if_pos hc, if_pos hc, if_neg hbm]
  · rw [if_neg ?_, if_neg hc, if_neg hc]
    rintro (h | h)
    · exact hbm h
    · exact hc h

theorem bdsPoints_step_none (bm : List Nat) (ref e d : ℚ)
    (k bcnt pcnt : Nat) (hbm : bm.length ≠ 0) :
    bdsPoints bm none ref e d (k + 1) bcnt pcnt =
      (if bm.getD bcnt 0 = 1 then ref else GRIB_MISSING_VALUE) ::
      bdsPoints bm none ref e d k (bcnt + 1) pcnt := by
  rw [bdsPoints]
  by_cases hc : bm.getD bcnt 0 = 1
  · rw [if_pos (Or.inr hc), if_pos hc, if_neg hbm]
  · rw [if_neg ?_, if_neg hc]
    rintro (h | h)
    · exact hbm h
    · exact hc h

theorem bdsPoints_getD_some (bm ps : List Nat) (ref e d : ℚ) :
    ∀ (k i bcnt pcnt : Nat), i < k → bcnt + k ≤ bm.length →
      (bdsPoints bm (some ps) ref e d k bcnt pcnt).getD i 0 =
        if bm.getD (bcnt + i) 0 = 1 then
          ref + (ps.getD (pcnt + ((bm.drop bcnt).take i).countP
            (fun x => x == 1)) 0 : ℚ) * e / d
        else GRIB_MISSING_VALUE := by
  intro k
  induction k with
  | zero => intro i bcnt pcnt h; omega
  | succ k ih =>
    intro i bcnt pcnt hik hlen
    have hbm : bm.length ≠ 0 := by omega
    have hbc : bcnt < bm.length := by omega
    rw [bdsPoints_step_some bm ps ref e d k bcnt pcnt hbm]
    cases i with
    | zero =>
      simp only [List.getD_cons_zero, List.take_zero, List.countP_nil,
        Nat.add_zero]
    | succ j =>
      simp only [List.getD_cons_succ]
      rw [countP_take_succ j hbc]
      by_cases hc : bm.getD bcnt 0 = 1
      · rw [if_pos hc, ih j (bcnt + 1) (pcnt + 1) (by omega) (by omega),
          show bcnt + 1 + j = bcnt + (j + 1) from by omega]
        simp only [hc, beq_self_eq_true, if_true]
        by_cases hcj : bm.getD (bcnt + (j + 1)) 0 = 1
        · rw [if_pos hcj, if_pos hcj]
          have : pcnt + 1 + ((bm.drop (bcnt + 1)).take j).countP
              (fun x => x == 1) = pcnt + (((bm.drop (bcnt + 1)).take j).countP
              (fun x => x == 1) + 1) := by omega
          rw [this]
        · rw [if_neg hcj, if_neg hcj]
      · rw [if_neg hc, ih j (bcnt + 1) pcnt (by omega) (by omega),
          show bcnt + 1 + j = bcnt + (j + 1) from by omega]
        have hcb : (bm.getD bcnt 0 == 1) = false := by
          simp only [beq_eq_false_iff_ne, ne_eq]
          exact hc
        rw [hcb]
        simp

theorem bdsPoints_getD_none (bm : List Nat) (ref e d : ℚ) :
    ∀ (k i bcnt pcnt : Nat), i < k → bcnt + k ≤ bm.length →
      (bdsPoints bm none ref e d k bcnt pcnt).getD i 0 =
        if bm.getD (bcnt + i) 0 = 1 then ref else GRIB_MISSING_VALUE := by
  intro k
  induction k with
  | zero => intro i bcnt pcnt h; omega
  | succ k ih =>
    intro i bcnt pcnt hik hlen
    have hbm : bm.length ≠ 0 := by omega
    rw [bdsPoints_step_none bm ref e d k bcnt pcnt hbm]
    cases i with
    | zero => simp only [List.getD_cons_zero, Nat.add_zero]
    | succ j =>
      simp only [List.getD_cons_succ]
      rw [ih j (bcnt + 1) pcnt (by omega) (by omega),
        show bcnt + 1 + j = bcnt + (j + 1) from by omega]

theorem bdsPoints_getD_none_empty (ref e d : ℚ) :
    ∀ (k i bcnt pcnt : Nat), i < k →
      (bdsPoints [] none ref e d k bcnt pcnt).getD i 0 = ref := by
  intro k
  induction k with
  | zero => intro i bcnt pcnt h; omega
  | succ k ih =>
    intro i bcnt pcnt hik
    rw [bdsPoints]
    simp only [List.length_nil, if_pos (Or.inl rfl)]
    cases i with
    | zero => simp
    | succ j => simpa using ih j (bcnt + 0) pcnt (by omega)

theorem dsPoints_step (buf bm : List Nat) (R e d : ℚ) (w k n off : Nat) :
    dsPoints buf (some bm) R e d w (k + 1) n off =
      (if bm.getD n 0 = 1 then
        R + (get_bits buf 0 off w : ℚ) * e / d
       else GRIB_MISSING_VALUE) ::
      dsPoints buf (some bm) R e d w k (n + 1)
        (if bm.getD n 0 = 1 then off + w else off) := by
  rw [dsPoints]
  have hne : (some bm = none) = False := by simp
  simp only [Option.getD_some, hne, false_or]
  by_cases hc : bm.getD n 0 = 1
  · rw [if_pos hc, if_pos hc, if_pos hc]
  · rw [if_neg hc, if_neg hc, if_neg hc]

theorem dsPoints_getD (buf bm : List Nat) (R e d : ℚ) (w : Nat) :
    ∀ (k i n off : Nat), i < k → n + k ≤ bm.length →
      (dsPoints buf (some bm) R e d w k n off).getD i 0 =
        if bm.getD (n + i) 0 = 1 then
          R + (get_bits buf 0 (off + w * ((bm.drop n).take i).countP
            (fun x => x == 1)) w : ℚ) * e / d
        else GRIB_MISSING_VALUE := by
  intro k
  induction k with
  | zero => intro i n off h; omega
  | succ k ih =>
    intro i n off hik hlen
    have hn : n < bm.length := by omega
    rw [dsPoints_step]
    cases i with
    | zero =>
      simp only [List.getD_cons_zero, List.take_zero, List.countP_nil,
        Nat.mul_zero, Nat.add_zero]
    | succ j =>
      simp only [List.getD_cons_succ]
      rw [countP_take_succ j hn]
      by_cases hc : bm.getD n 0 = 1
      · rw [if_pos hc, ih j (n + 1) (off + w) (by omega) (by omega),
          show n + 1 + j = n + (j + 1) from by omega]
        simp only [hc, beq_self_eq_true, if_true]
        have : off + w + w * ((bm.drop (n + 1)).take j).countP
            (fun x => x == 1) = off + w * (((bm.drop (n + 1)).take j).countP
            (fun x => x == 1) + 1) := by ring
        rw [this]
      · rw [if_neg hc, ih j (n + 1) off (by omega) (by omega),
          show n + 1 + j = n + (j + 1) from by omega]
        have hcb : (bm.getD n 0 == 1) = false := by
          simp only [beq_eq_false_iff_ne, ne_eq]
          exact hc
        rw [hcb]
        simp

/-- C4: in both decoders, a gridpoint masked out by the bitmap is assigned
exactly the sentinel `GRIB_MISSING_VALUE = 1.e30` and consumes no packed
value: a present gridpoint `i` takes the `c`-th packed value (GRIB-1) or
the `w`-bit field at `off0 + w*c` (GRIB-2), where `c` counts the present
points before `i` — so packed data is consumed only at present points. -/
theorem bitmap_law_gridpoint_loops :
    (∀ (bm ps : List Nat) (ref e d : ℚ) (num i : Nat),
      bm.length = num → i < num →
      ((bm.getD i 0 = 0 →
        (bdsPoints bm (some ps) ref e d num 0 0).getD i 0 =
          GRIB_MISSING_VALUE) ∧
       (bm.getD i 0 = 1 →
        (bdsPoints bm (some ps) ref e d num 0 0).getD i 0 =
          ref + (ps.getD ((bm.take i).countP (fun x => x == 1)) 0 : ℚ)
            * e / d))) ∧
    (∀ (buf bm : List Nat) (R e d : ℚ) (w num i off0 : Nat),
      bm.length = num → i < num →
      ((bm.getD i 0 = 0 →
        (dsPoints buf (some bm) R e d w num 0 off0).getD i 0 =
          GRIB_MISSING_VALUE) ∧
       (bm.getD i 0 = 1 →
        (dsPoints buf (some bm) R e d w num 0 off0).getD i 0 =
          R + (get_bits buf 0
            (off0 + w * (bm.take i).countP (fun x => x == 1)) w : ℚ)
            * e / d))) := by
  constructor
  · intro bm ps ref e d num i hlen hi
    have h := bdsPoints_getD_some bm ps ref e d num i 0 0 hi (by omega)
    simp only [Nat.zero_add, List.drop_zero] at h
    constructor
    · intro h0; rw [h, if_neg (by omega)]
    · intro h1; rw [h, if_pos h1]
  · intro buf bm R e d w num i off0 hlen hi
    have h := dsPoints_getD buf bm R e d w num i 0 off0 hi (by omega)
    simp only [Nat.zero_add, List.drop_zero] at h
    constructor
    · intro h0; rw [h, if_neg (by omega)]
    · intro h1; rw [h, if_pos h1]

/-- Witness for C4 at the concrete bitmap [1,0,1,1]: point 1 is masked and
decodes to the sentinel in both loops; point 2 is present and takes packed
value number 1 (GRIB-1) and the 8-bit field at bit offset 8 (GRIB-2). -/
theorem bitmap_law_witness :
    (bdsPoints [1, 0, 1, 1] (some [2, 4, 6]) 0 1 1 4 0 0).getD 1 0 =
      GRIB_MISSING_VALUE ∧
    (bdsPoints [1, 0, 1, 1] (some [2, 4, 6]) 0 1 1 4 0 0).getD 2 0 =
      0 + (([2, 4, 6].getD (([1, 0, 1, 1].take 2).countP
        (fun x => x == 1)) 0 : ℚ)) * 1 / 1 ∧
    (dsPoints [9, 7, 5, 3] (some [1, 0, 1, 1]) 0 1 1 8 4 0 0).getD 1 0 =
      GRIB_MISSING_VALUE := by
  refine ⟨?_, ?_, ?_⟩
  · exact (bitmap_law_gridpoint_loops.1 [1, 0, 1, 1] [2, 4, 6] 0 1 1 4 1
      rfl (by norm_num)).1 (by rfl)
  · exact (bitmap_law_gridpoint_loops.1 [1, 0, 1, 1] [2, 4, 6] 0 1 1 4 2
      rfl (by norm_num)).2 (by rfl)
  · exact (bitmap_law_gridpoint_loops.2 [9, 7, 5, 3] [1, 0, 1, 1] 0 1 1 8 4 1
      0 rfl (by norm_num)).1 (by rfl)

/-- C7: with `pack_width = 0` the GRIB-1 Binary Data Section decodes a
constant grid: every point the bitmap leaves present receives exactly the
reference value (the IBM-decoded reference divided by `10^D`), and every
masked point receives the missing sentinel; with no bitmap every point
receives the reference value. -/
theorem unpack_BDS_constant_field :
    ∀ (buf : List Nat) (off : Nat) (D : Int) (data_rep grid_type : Nat)
      (bm : List Nat) (num i : Nat),
      get_bits buf 0 (off + 80) 8 = 0 → i < num →
      ((bm.length = num →
        ((bm.getD i 0 = 1 →
          (unpack_BDS buf off D data_rep grid_type bm num).getD i 0 =
            ibm2real buf (off + 48) / (10 : ℚ) ^ D) ∧
         (bm.getD i 0 = 0 →
          (unpack_BDS buf off D data_rep grid_type bm num).getD i 0 =
            GRIB_MISSING_VALUE))) ∧
       (bm = [] →
        (unpack_BDS buf off D data_rep grid_type bm num).getD i 0 =
          ibm2real buf (off + 48) / (10 : ℚ) ^ D)) := by
  intro buf off D data_rep grid_type bm num i hpw hi
  have hu : unpack_BDS buf off D data_rep grid_type bm num =
      bdsPoints bm none (ibm2real buf (off + 48) / (10 : ℚ) ^ D)
        ((2 : ℚ) ^ (if get_bits buf 0 (off + 32) 1 = 1 then
          -(get_bits buf 0 (off + 33) 15 : Int)
          else (get_bits buf 0 (off + 33) 15 : Int)))
        ((10 : ℚ) ^ D) num 0 0 := by
    rw [unpack_BDS, hpw]
    norm_num
  constructor
  · intro hlen
    constructor
    · intro h1
      rw [hu, bdsPoints_getD_none _ _ _ _ num i 0 0 hi (by omega)]
      simp only [Nat.zero_add]
      rw [if_pos h1]
    · intro h0
      rw [hu, bdsPoints_getD_none _ _ _ _ num i 0 0 hi (by omega)]
      simp only [Nat.zero_add]
      rw [if_neg (by omega)]
  · intro hemp
    subst hemp
    rw [hu, bdsPoints_getD_none_empty _ _ _ num i 0 0 hi]

/-- A concrete constant-field BDS: length 11, simple packing, E = 0, IBM
reference value 1.0 (0x41 0x10 0x00 0x00), pack width 0. -/
def bdsBufC : List Nat := [0, 0, 11, 0, 0, 0, 65, 16, 0, 0, 0]

/-- Witness for C7: on the concrete constant-field section with bitmap
[1,0], point 0 decodes to the reference value and point 1 to the
sentinel. -/
theorem unpack_BDS_constant_field_witness :
    (unpack_BDS bdsBufC 0 0 0 0 [1, 0] 2).getD 0 0 =
      ibm2real bdsBufC 48 / (10 : ℚ) ^ (0 : Int) ∧
    (unpack_BDS bdsBufC 0 0 0 0 [1, 0] 2).getD 1 0 = GRIB_MISSING_VALUE := by
  have hpw : get_bits bdsBufC 0 (0 + 80) 8 = 0 := by decide
  constructor
  · exact ((unpack_BDS_constant_field bdsBufC 0 0 0 0 [1, 0] 2 0 hpw
      (by norm_num)).1 rfl).1 (by rfl)
  · exact ((unpack_BDS_constant_field bdsBufC 0 0 0 0 [1, 0] 2 1 hpw
      (by norm_num)).1 rfl).2 (by rfl)


/-! ### C5: BitStream round-trip (get_bits / set_bits) -/

/-! ### Basic byte and mask lemmas -/

theorem pow2_le_pow2 {a b : Nat} (h : a ≤ b) : (2 : Nat) ^ a ≤ 2 ^ b :=
  Nat.pow_le_pow_right (by norm_num) h

theorem byteD_lt {buf : List Nat} (hb : ∀ x ∈ buf, x < 256) (j : Nat) :
    buf.getD j 0 < 256 := by
  by_cases h : j < buf.length
  · rw [List.getD_eq_getElem buf 0 h]
    exact hb _ (List.getElem_mem h)
  · have : buf.getD j 0 = 0 := List.getD_eq_default buf 0 (by omega)
    omega

theorem cmpl32_allones_shift {b : Nat} (hb : b ≤ 32) :
    cmpl32 ((4294967295 <<< b) % 2 ^ 32) = 2 ^ b - 1 := by
  have ht : (2 : Nat) ^ b ≤ 2 ^ 32 := Nat.pow_le_pow_right (by norm_num) hb
  have hp : (1 : Nat) ≤ 2 ^ b := Nat.one_le_two_pow
  have h2 : (2 ^ 32 - 1) * 2 ^ b = 2 ^ 32 * 2 ^ b - 2 ^ b := by
    rw [Nat.sub_mul, Nat.one_mul]
  have h3 : (2 : Nat) ^ 32 * (2 ^ b - 1) = 2 ^ 32 * 2 ^ b - 2 ^ 32 := by
    rw [Nat.sub_one, Nat.mul_pred]
  have h1 : (4294967295 <<< b) = 2 ^ 32 * (2 ^ b - 1) + (2 ^ 32 - 2 ^ b) := by
    rw [Nat.shiftLeft_eq, show (4294967295 : Nat) = 2 ^ 32 - 1 from by norm_num]
    have hbig : (2 : Nat) ^ b ≤ 2 ^ 32 * 2 ^ b := Nat.le_mul_of_pos_left _ (by norm_num)
    have hbig2 : (2 : Nat) ^ 32 ≤ 2 ^ 32 * 2 ^ b := Nat.le_mul_of_pos_right _ (by omega)
    omega
  rw [h1, Nat.mul_add_mod, Nat.mod_eq_of_lt (by omega)]
  unfold cmpl32
  omega

theorem and_shiftLeft_eq_zero {x k : Nat} (hx : x < 2 ^ k) (y : Nat) :
    x &&& (y <<< k) = 0 := by
  apply Nat.eq_of_testBit_eq
  intro j
  simp only [Nat.testBit_and, Nat.testBit_shiftLeft, Nat.zero_testBit]
  by_cases hj : j < k
  · simp [Nat.not_le.mpr hj]
  · have : x < 2 ^ j :=
      lt_of_lt_of_le hx (Nat.pow_le_pow_right (by norm_num) (by omega))
    simp [Nat.testBit_lt_two_pow this]

theorem and_cmpl32_oct {x m : Nat} (hm : m < 8) (hx : x < 256) :
    x &&& cmpl32 ((255 <<< m) % 2 ^ 32) = x % 2 ^ m := by
  have hsm : (255 <<< m) % 2 ^ 32 = 255 * 2 ^ m := by
    rw [Nat.shiftLeft_eq]
    apply Nat.mod_eq_of_lt
    have : (2 : Nat) ^ m ≤ 2 ^ 8 := Nat.pow_le_pow_right (by norm_num) (by omega)
    calc 255 * 2 ^ m ≤ 255 * 2 ^ 8 := Nat.mul_le_mul_left _ this
    _ < 2 ^ 32 := by norm_num
  have e1 : (2 : Nat) ^ (m + 8) * 2 ^ (24 - m) = 2 ^ 32 := by
    rw [← pow_add]; congr 1; omega
  have e2 : (2 : Nat) ^ (m + 8) * (2 ^ (24 - m) - 1) =
      2 ^ (m + 8) * 2 ^ (24 - m) - 2 ^ (m + 8) := by
    rw [Nat.sub_one, Nat.mul_pred]
  have e3 : (255 : Nat) * 2 ^ m = 2 ^ (m + 8) - 2 ^ m := by
    have : (2 : Nat) ^ (m + 8) = 2 ^ m * 256 := by rw [pow_add]; norm_num
    omega
  have hp8 : (2 : Nat) ^ (m + 8) ≤ 2 ^ 32 := Nat.pow_le_pow_right (by norm_num) (by omega)
  have hpm : (1 : Nat) ≤ 2 ^ m := Nat.one_le_two_pow
  have hdec : cmpl32 (255 * 2 ^ m) =
      2 ^ (m + 8) * (2 ^ (24 - m) - 1) + (2 ^ m - 1) := by
    unfold cmpl32
    omega
  have hp8' : (256 : Nat) ≤ 2 ^ (m + 8) := by
    calc (256 : Nat) = 2 ^ 8 := by norm_num
    _ ≤ 2 ^ (m + 8) := pow2_le_pow2 (by omega)
  rw [hsm, hdec, Nat.mul_add_lt_is_or (by omega), Nat.and_or_distrib_left]
  have hsh : (2 : Nat) ^ (m + 8) * (2 ^ (24 - m) - 1) =
      (2 ^ (24 - m) - 1) <<< (m + 8) := by
    rw [Nat.shiftLeft_eq]; ring
  have hz : x &&& 2 ^ (m + 8) * (2 ^ (24 - m) - 1) = 0 := by
    rw [hsh]
    exact and_shiftLeft_eq_zero (lt_of_lt_of_le hx hp8') _
  simp [hz]

theorem and_shiftLeft_255 {x k : Nat} (hx : x < 256) (hk : k ≤ 8) :
    x &&& (255 <<< k) = x / 2 ^ k * 2 ^ k := by
  apply Nat.eq_of_testBit_eq
  intro j
  simp only [Nat.testBit_and, Nat.testBit_shiftLeft]
  have h255 : ∀ i, Nat.testBit 255 i = decide (i < 8) := by
    intro i
    rw [show (255 : Nat) = 2 ^ 8 - 1 from by norm_num,
      Nat.testBit_two_pow_sub_one]
  rw [h255]
  have hdiv : x / 2 ^ k * 2 ^ k = 2 ^ k * (x >>> k) := by
    rw [Nat.shiftRight_eq_div_pow]; ring
  rw [hdiv, Nat.testBit_mul_pow_two]
  simp only [Nat.testBit_shiftRight]
  by_cases hj : j < k
  · simp [Nat.not_le.mpr hj]
  · have hge : k ≤ j := by omega
    by_cases hj8 : j < k + 8
    · have hkj : k + (j - k) = j := by omega
      simp [hge, hkj, show j - k < 8 from by omega]
    · have h256 : (256 : Nat) ≤ 2 ^ j := by
        calc (256 : Nat) = 2 ^ 8 := by norm_num
        _ ≤ 2 ^ j := pow2_le_pow2 (by omega)
      have hxj : Nat.testBit x j = false :=
        Nat.testBit_lt_two_pow (lt_of_lt_of_le hx h256)
      have hxj2 : Nat.testBit x (k + (j - k)) = false := by
        rwa [show k + (j - k) = j from by omega]
      simp [hxj, hxj2, show ¬(j - k < 8) from by omega]


/-! ### winVal: arithmetic of bit windows -/

theorem winVal_lt (buf : List Nat) (off : Nat) : ∀ b, winVal buf off b < 2 ^ b
  | 0 => by simp [winVal]
  | b + 1 => by
    have h := winVal_lt buf off b
    have hb : (bufBit buf (off + b)).toNat ≤ 1 := Bool.toNat_le _
    rw [winVal, pow_succ]
    omega

theorem bufBit_toNat (buf : List Nat) (k : Nat) :
    (bufBit buf k).toNat = buf.getD (k / 8) 0 / 2 ^ (7 - k % 8) % 2 := by
  unfold bufBit
  rw [Nat.testBit_to_div_mod]
  rcases Nat.mod_two_eq_zero_or_one (buf.getD (k / 8) 0 / 2 ^ (7 - k % 8))
    with h | h <;> rw [h] <;> decide

theorem winVal_in_byte (buf : List Nat) (off : Nat) :
    ∀ b, off % 8 + b ≤ 8 →
      winVal buf off b = buf.getD (off / 8) 0 / 2 ^ (8 - off % 8 - b) % 2 ^ b
  | 0, _ => by simp [winVal, Nat.mod_one]
  | b + 1, h => by
    rw [winVal, winVal_in_byte buf off b (by omega), bufBit_toNat]
    have hdiv : (off + b) / 8 = off / 8 := by omega
    have hmod : (off + b) % 8 = off % 8 + b := by omega
    rw [hdiv, hmod]
    have e1 : (8 : Nat) - off % 8 - (b + 1) = 7 - off % 8 - b := by omega
    have e2 : (8 : Nat) - off % 8 - b = (7 - off % 8 - b) + 1 := by omega
    have e3 : (7 : Nat) - (off % 8 + b) = 7 - off % 8 - b := by omega
    rw [e1, e2, e3, pow_succ, ← Nat.div_div_eq_div_mul]
    generalize buf.getD (off / 8) 0 / 2 ^ (7 - off % 8 - b) = q
    rw [pow_succ']
    rw [Nat.mod_mul]
    omega

theorem winVal_split (buf : List Nat) (off b1 : Nat) :
    ∀ b2, winVal buf off (b1 + b2) =
      winVal buf off b1 * 2 ^ b2 + winVal buf (off + b1) b2
  | 0 => by simp [winVal]
  | b2 + 1 => by
    rw [show b1 + (b2 + 1) = (b1 + b2) + 1 from rfl, winVal,
      winVal_split buf off b1 b2, winVal,
      show off + (b1 + b2) = off + b1 + b2 from by omega]
    ring

theorem winVal_byte {buf : List Nat} (hb : ∀ x ∈ buf, x < 256) (j : Nat) :
    winVal buf (8 * j) 8 = buf.getD j 0 := by
  rw [winVal_in_byte buf (8 * j) 8 (by omega),
    show 8 * j % 8 = 0 from by omega, show 8 * j / 8 = j from by omega]
  simp only [show (8 : Nat) - 0 - 8 = 0 from rfl, pow_zero, Nat.div_one]
  exact Nat.mod_eq_of_lt (by have := byteD_lt hb j; omega)

theorem winVal_sum (buf : List Nat) (off : Nat) :
    ∀ b, winVal buf off b =
      (Finset.range b).sum (fun j => (bufBit buf (off + j)).toNat * 2 ^ (b - 1 - j))
  | 0 => by simp [winVal]
  | b + 1 => by
    rw [winVal, winVal_sum buf off b, Finset.sum_range_succ,
      Finset.sum_mul]
    have h1 : ∀ j, j < b →
        (bufBit buf (off + j)).toNat * 2 ^ (b - 1 - j) * 2 =
        (bufBit buf (off + j)).toNat * 2 ^ (b + 1 - 1 - j) := by
      intro j hj
      rw [mul_assoc, ← pow_succ, show b - 1 - j + 1 = b + 1 - 1 - j from by omega]
    rw [Finset.sum_congr rfl (fun j hj => h1 j (Finset.mem_range.mp hj))]
    simp

theorem testBit_sum_mod (src : Nat) :
    ∀ b, (Finset.range b).sum (fun i => (Nat.testBit src i).toNat * 2 ^ i) =
      src % 2 ^ b
  | 0 => by simp [Nat.mod_one]
  | b + 1 => by
    rw [Finset.sum_range_succ, testBit_sum_mod src b, Nat.toNat_testBit,
      pow_succ, Nat.mod_mul]
    ring

theorem winVal_eq_mod (buf : List Nat) (off src b : Nat)
    (h : ∀ j, j < b → bufBit buf (off + j) = Nat.testBit src (b - 1 - j)) :
    winVal buf off b = src % 2 ^ b := by
  rw [winVal_sum,
    Finset.sum_congr rfl (fun j hj => by
      rw [h j (Finset.mem_range.mp hj)]),
    Finset.sum_range_reflect (fun i => (Nat.testBit src i).toNat * 2 ^ i) b,
    testBit_sum_mod]


/-! ### The get_bits loop and its specification -/

theorem gbLoop_spec (buf : List Nat) :
    ∀ (m : Nat), ∀ (w loc : Nat), 0 < m →
      gbLoop buf w (-(m : Int)) loc =
        (w + (m + 7) / 8,
         ((8 * ((m + 7) / 8) - m : Nat) : Int),
         (loc + (Finset.range ((m + 7) / 8)).sum
            (fun i => buf.getD (w + i) 0 * 2 ^ (m - 8 * i))) % 2 ^ 32) := by
  intro m
  induction m using Nat.strong_induction_on with
  | _ m ih =>
    intro w loc hm
    rw [gbLoop, if_pos (show (-(m : Int)) < 0 by omega)]
    have hneg : (-(-(m : Int))).toNat = m := by omega
    rw [hneg]
    by_cases h8 : m ≤ 8
    · have hr : (-(m : Int) + 8) = ((8 - m : Nat) : Int) := by omega
      rw [hr, gbLoop, if_neg (by omega)]
      have hK : (m + 7) / 8 = 1 := by omega
      rw [hK, Finset.sum_range_one]
      simp only [Nat.add_zero, Nat.mul_zero, Nat.sub_zero, Nat.mul_one]
    · have hm8 : 0 < m - 8 := by omega
      have hr : (-(m : Int) + 8) = -(((m - 8 : Nat)) : Int) := by omega
      rw [hr, ih (m - 8) (by omega) (w + 1)
        ((loc + buf.getD w 0 * 2 ^ m) % 2 ^ 32) hm8]
      have hK : (m + 7) / 8 = (m - 8 + 7) / 8 + 1 := by omega
      refine congrArg₂ Prod.mk (by omega) (congrArg₂ Prod.mk (by omega) ?_)
      rw [Nat.mod_add_mod]
      congr 1
      rw [hK, Finset.sum_range_succ']
      have hterm : ∀ i, buf.getD (w + (i + 1)) 0 * 2 ^ (m - 8 * (i + 1)) =
          buf.getD (w + 1 + i) 0 * 2 ^ (m - 8 - 8 * i) := by
        intro i
        have e1 : w + (i + 1) = w + 1 + i := by omega
        have e2 : m - 8 * (i + 1) = m - 8 - 8 * i := by omega
        rw [e1, e2]
      rw [Finset.sum_congr rfl (fun i _ => hterm i)]
      simp only [Nat.add_zero, Nat.mul_zero, Nat.sub_zero]
      omega

theorem winVal_bytes {buf : List Nat} (hb : ∀ x ∈ buf, x < 256) :
    ∀ (t j m : Nat), 8 * t < m → m ≤ 8 * t + 8 →
      winVal buf (8 * j) m =
        (Finset.range t).sum
          (fun i => buf.getD (j + i) 0 * 2 ^ (m - 8 * (i + 1))) +
          buf.getD (j + t) 0 >>> (8 * (t + 1) - m) := by
  intro t
  induction t with
  | zero =>
    intro j m hm1 hm2
    simp only [Finset.sum_range_zero, Nat.zero_add, Nat.add_zero, Nat.mul_one]
    rw [winVal_in_byte buf (8 * j) m (by omega),
      show 8 * j % 8 = 0 from by omega, show 8 * j / 8 = j from by omega,
      Nat.shiftRight_eq_div_pow, show (8 : Nat) - 0 - m = 8 - m from by omega]
    apply Nat.mod_eq_of_lt
    rw [Nat.div_lt_iff_lt_mul (Nat.pos_pow_of_pos _ (by norm_num))]
    calc buf.getD j 0 < 256 := byteD_lt hb j
    _ ≤ 2 ^ m * 2 ^ (8 - m) := by
      rw [← pow_add, show m + (8 - m) = 8 from by omega]; norm_num
  | succ t iht =>
    intro j m hm1 hm2
    have hsplit := winVal_split buf (8 * j) 8 (m - 8)
    rw [show (8 : Nat) + (m - 8) = m from by omega] at hsplit
    rw [hsplit, winVal_byte hb j,
      show 8 * j + 8 = 8 * (j + 1) from by omega,
      iht (j + 1) (m - 8) (by omega) (by omega),
      Finset.sum_range_succ']
    have hterm : ∀ i, buf.getD (j + (i + 1)) 0 * 2 ^ (m - 8 * (i + 1 + 1)) =
        buf.getD (j + 1 + i) 0 * 2 ^ (m - 8 - 8 * (i + 1)) := by
      intro i
      have e1 : j + (i + 1) = j + 1 + i := by omega
      have e2 : m - 8 * (i + 1 + 1) = m - 8 - 8 * (i + 1) := by omega
      rw [e1, e2]
    rw [Finset.sum_congr rfl (fun i _ => hterm i)]
    have e3 : j + 1 + t = j + (t + 1) := by omega
    have e4 : 8 * (t + 1) - (m - 8) = 8 * (t + 1 + 1) - m := by omega
    rw [e3, e4]
    simp only [Nat.add_zero, Nat.zero_add, Nat.mul_zero, Nat.sub_zero,
      Nat.mul_one]
    omega

theorem crossing_sum {buf : List Nat} (hb : ∀ x ∈ buf, x < 256)
    (off bits : Nat) (h1 : 1 ≤ bits) (h32 : bits ≤ 32)
    (hcross : 8 < off % 8 + bits) :
    (Finset.range ((off % 8 + bits - 8 + 7) / 8)).sum
        (fun i => buf.getD (off / 8 + i) 0 *
          2 ^ (off % 8 + bits - 8 - 8 * i)) +
      buf.getD (off / 8 + (off % 8 + bits - 8 + 7) / 8) 0 >>>
        (8 * ((off % 8 + bits - 8 + 7) / 8) - (off % 8 + bits - 8)) =
    buf.getD (off / 8) 0 / 2 ^ (8 - off % 8) * 2 ^ bits +
      winVal buf off bits := by
  set s := off % 8 with hs
  set m := s + bits - 8 with hm
  set K := (m + 7) / 8 with hKdef
  have hK1 : 1 ≤ K := by omega
  have hsplit := winVal_split buf off (8 - s) m
  rw [show (8 : Nat) - s + m = bits from by omega] at hsplit
  have hfirst : winVal buf off (8 - s) = buf.getD (off / 8) 0 % 2 ^ (8 - s) := by
    rw [winVal_in_byte buf off (8 - s) (by omega)]
    rw [show (8 : Nat) - off % 8 - (8 - s) = 0 from by omega]
    simp
  have hoff : off + (8 - s) = 8 * (off / 8 + 1) := by omega
  have hrest := winVal_bytes hb (K - 1) (off / 8 + 1) m (by omega) (by omega)
  rw [show K - 1 + 1 = K from by omega] at hrest
  have hrest2 : winVal buf (8 * (off / 8 + 1)) m =
      (Finset.range (K - 1)).sum
        (fun i => buf.getD (off / 8 + 1 + i) 0 * 2 ^ (m - 8 * (i + 1))) +
        buf.getD (off / 8 + K) 0 >>> (8 * K - m) := by
    rw [hrest, show off / 8 + 1 + (K - 1) = off / 8 + K from by omega]
  have hS : (Finset.range K).sum
      (fun i => buf.getD (off / 8 + i) 0 * 2 ^ (m - 8 * i)) =
      buf.getD (off / 8) 0 * 2 ^ m +
      (Finset.range (K - 1)).sum
        (fun i => buf.getD (off / 8 + 1 + i) 0 * 2 ^ (m - 8 * (i + 1))) := by
    rw [show K = (K - 1) + 1 from by omega, Finset.sum_range_succ']
    have hterm : ∀ i, buf.getD (off / 8 + (i + 1)) 0 * 2 ^ (m - 8 * (i + 1)) =
        buf.getD (off / 8 + 1 + i) 0 * 2 ^ (m - 8 * (i + 1)) := by
      intro i
      rw [show off / 8 + (i + 1) = off / 8 + 1 + i from by omega]
    rw [Finset.sum_congr rfl (fun i _ => hterm i)]
    simp only [Nat.add_zero, Nat.zero_add, Nat.mul_zero, Nat.sub_zero,
      Nat.mul_one, Nat.add_sub_cancel]
    omega
  have hbyte : buf.getD (off / 8) 0 * 2 ^ m =
      buf.getD (off / 8) 0 / 2 ^ (8 - s) * 2 ^ bits +
      buf.getD (off / 8) 0 % 2 ^ (8 - s) * 2 ^ m := by
    have hdm := Nat.div_add_mod (buf.getD (off / 8) 0) (2 ^ (8 - s))
    have hpow : (2 : Nat) ^ (8 - s) * 2 ^ m = 2 ^ bits := by
      rw [← pow_add]; congr 1; omega
    calc buf.getD (off / 8) 0 * 2 ^ m
        = (2 ^ (8 - s) * (buf.getD (off / 8) 0 / 2 ^ (8 - s)) +
            buf.getD (off / 8) 0 % 2 ^ (8 - s)) * 2 ^ m := by rw [hdm]
    _ = buf.getD (off / 8) 0 / 2 ^ (8 - s) * (2 ^ (8 - s) * 2 ^ m) +
          buf.getD (off / 8) 0 % 2 ^ (8 - s) * 2 ^ m := by ring
    _ = _ := by rw [hpow]
  rw [hS, hbyte, hsplit, hfirst, hoff, hrest2]
  ring


theorem shiftRight_byte_lt {x r : Nat} (hx : x < 256) (hr : r ≤ 8) :
    x >>> r < 2 ^ (8 - r) := by
  rw [Nat.shiftRight_eq_div_pow]
  rw [Nat.div_lt_iff_lt_mul (Nat.pos_pow_of_pos _ (by norm_num))]
  calc x < 256 := hx
  _ ≤ 2 ^ (8 - r) * 2 ^ r := by
    rw [← pow_add, show 8 - r + r = 8 from by omega]; norm_num

theorem get_bits_spec {buf : List Nat} (hb : ∀ x ∈ buf, x < 256)
    (loc off bits : Nat) (h1 : 1 ≤ bits) (h32 : bits ≤ 32) :
    get_bits buf loc off bits = winVal buf off bits := by
  simp only [get_bits]
  rw [if_neg (show ¬bits = 0 from by omega), if_neg (show ¬32 < bits from by omega)]
  by_cases hcross : 8 < off % 8 + bits
  · have hneg : ((8 : Int) - (off % 8 : Nat) - (bits : Nat)) < 0 := by omega
    rw [if_pos hneg,
      show ((8 : Int) - (off % 8 : Nat) - (bits : Nat)) =
        -((off % 8 + bits - 8 : Nat) : Int) from by omega,
      gbLoop_spec buf (off % 8 + bits - 8) (off / 8) 0 (by omega)]
    simp only [Int.toNat_natCast, Nat.zero_add, ne_eq, Nat.cast_eq_zero]
    have key := crossing_sum hb off bits h1 h32 hcross
    by_cases hr : 8 * ((off % 8 + bits - 8 + 7) / 8) - (off % 8 + bits - 8) = 0
    · rw [hr] at key ⊢
      rw [Nat.shiftRight_zero] at key
      simp only [not_true, if_false]
      rw [Nat.mod_add_mod, key]
      by_cases h32e : bits = 32
      · rw [if_neg (show ¬bits ≠ 32 from by omega)]
        subst h32e
        rw [mul_comm, Nat.mul_add_mod]
        exact Nat.mod_eq_of_lt (winVal_lt buf off 32)
      · rw [if_pos (show bits ≠ 32 from h32e), cmpl32_allones_shift h32,
          Nat.and_pow_two_sub_one_eq_mod,
          Nat.mod_mod_of_dvd _ (pow_dvd_pow 2 h32), mul_comm,
          Nat.mul_add_mod]
        exact Nat.mod_eq_of_lt (winVal_lt buf off bits)
    · have hrle : 8 * ((off % 8 + bits - 8 + 7) / 8) -
          (off % 8 + bits - 8) ≤ 7 := by omega
      simp only [if_pos (show ¬(8 * ((off % 8 + bits - 8 + 7) / 8) -
        (off % 8 + bits - 8)) = 0 from hr)]
      have hbl : buf.getD (off / 8 + (off % 8 + bits - 8 + 7) / 8) 0 < 256 :=
        byteD_lt hb _
      have hshle : buf.getD (off / 8 + (off % 8 + bits - 8 + 7) / 8) 0 >>>
          (8 * ((off % 8 + bits - 8 + 7) / 8) - (off % 8 + bits - 8)) < 256 := by
        rw [Nat.shiftRight_eq_div_pow]
        exact lt_of_le_of_lt (Nat.div_le_self _ _) hbl
      rw [and_cmpl32_oct (by omega) hshle,
        Nat.mod_eq_of_lt (shiftRight_byte_lt hbl (by omega)),
        Nat.mod_add_mod, key]
      by_cases h32e : bits = 32
      · rw [if_neg (show ¬bits ≠ 32 from by omega)]
        subst h32e
        rw [mul_comm, Nat.mul_add_mod]
        exact Nat.mod_eq_of_lt (winVal_lt buf off 32)
      · rw [if_pos (show bits ≠ 32 from h32e), cmpl32_allones_shift h32,
          Nat.and_pow_two_sub_one_eq_mod,
          Nat.mod_mod_of_dvd _ (pow_dvd_pow 2 h32), mul_comm,
          Nat.mul_add_mod]
        exact Nat.mod_eq_of_lt (winVal_lt buf off bits)
  · have hpos : ¬(((8 : Int) - (off % 8 : Nat) - (bits : Nat)) < 0) := by omega
    rw [if_neg hpos, if_pos (show bits ≠ 32 from by omega),
      show ((8 : Int) - (off % 8 : Nat) - (bits : Nat)).toNat =
        8 - off % 8 - bits from by omega,
      Nat.shiftRight_eq_div_pow, cmpl32_allones_shift h32,
      Nat.and_pow_two_sub_one_eq_mod,
      winVal_in_byte buf off bits (by omega)]


/-! ### The set_bits loop and its specification -/

theorem getD_set_self {l : List Nat} {i : Nat} (hi : i < l.length) (a : Nat) :
    (l.set i a).getD i 0 = a := by
  rw [List.getD_eq_getElem (l.set i a) 0 (by simpa using hi)]
  exact List.getElem_set_self _

theorem getD_set_ne {l : List Nat} {i j : Nat} (h : i ≠ j) (a : Nat) :
    (l.set i a).getD j 0 = l.getD j 0 := by
  rw [List.getD_eq_getElem?_getD, List.getD_eq_getElem?_getD,
    List.getElem?_set_ne h]

theorem getD_oob {l : List Nat} {j : Nat} (h : l.length ≤ j) :
    l.getD j 0 = 0 :=
  List.getD_eq_default l 0 h

theorem sbLoop_spec (src : Nat) :
    ∀ (more : Nat), ∀ (buf : List Nat) (w : Nat), more ≤ 31 →
      (sbLoop src buf w more).2.1 = w + (more - 1) / 8 ∧
      (sbLoop src buf w more).2.2 = more - 8 * ((more - 1) / 8) ∧
      (sbLoop src buf w more).1.length = buf.length ∧
      ∀ j, (sbLoop src buf w more).1.getD j 0 =
        if w + 1 ≤ j ∧ j ≤ w + (more - 1) / 8 ∧ j < buf.length then
          (src >>> (more - 8 * (j - w))) % 256
        else buf.getD j 0 := by
  intro more
  induction more using Nat.strong_induction_on with
  | _ more ih =>
    intro buf w h31
    by_cases h8 : more ≤ 8
    · rw [sbLoop, if_neg (by omega)]
      refine ⟨?_, ?_, rfl, ?_⟩
      · show w = w + (more - 1) / 8
        omega
      · show more = more - 8 * ((more - 1) / 8)
        omega
      · intro j
        show buf.getD j 0 = _
        rw [if_neg (by omega)]
    · rw [sbLoop, if_pos (by omega)]
      have hv : ((src >>> (more - 8)) &&&
          cmpl32 ((4294967295 <<< (32 - (more - 8))) % 2 ^ 32)) % 256 =
          (src >>> (more - 8)) % 256 := by
        rw [cmpl32_allones_shift (by omega),
          Nat.and_pow_two_sub_one_eq_mod,
          show (256 : Nat) = 2 ^ 8 from by norm_num,
          Nat.mod_mod_of_dvd _ (pow_dvd_pow 2 (by omega))]
      rw [hv]
      obtain ⟨ih1, ih2, ih3, ih4⟩ :=
        ih (more - 8) (by omega) (buf.set (w + 1) ((src >>> (more - 8)) % 256))
          (w + 1) (by omega)
      refine ⟨?_, ?_, ?_, ?_⟩
      · rw [ih1]; omega
      · rw [ih2]; omega
      · rw [ih3, List.length_set]
      · intro j
        rw [ih4 j, List.length_set]
        by_cases hj1 : j = w + 1
        · subst hj1
          rw [if_neg (by omega)]
          by_cases hjl : w + 1 < buf.length
          · rw [getD_set_self hjl, if_pos ⟨by omega, by omega, hjl⟩,
              show more - 8 * (w + 1 - w) = more - 8 from by omega]
          · rw [List.set_eq_of_length_le (by omega), if_neg (by omega)]
        · rw [getD_set_ne (by omega)]
          by_cases hc2 : (w + 1) + 1 ≤ j ∧ j ≤ (w + 1) + (more - 8 - 1) / 8 ∧
              j < buf.length
          · rw [if_pos hc2, if_pos ⟨by omega, by omega, hc2.2.2⟩,
              show more - 8 - 8 * (j - (w + 1)) = more - 8 * (j - w) from by omega]
          · rw [if_neg hc2, if_neg (by omega)]



/-! ### Per-byte arithmetic of set_bits -/

theorem testBit_hi_lo (hi : Nat) {lo m : Nat} (hlo : lo < 2 ^ m) (j : Nat) :
    Nat.testBit (hi * 2 ^ m + lo) j =
      if j < m then Nat.testBit lo j else Nat.testBit hi (j - m) := by
  rw [Nat.mul_comm]
  exact Nat.testBit_mul_pow_two_add hi hlo j

theorem testBit_split (B m j : Nat) :
    Nat.testBit B j =
      if j < m then Nat.testBit (B % 2 ^ m) j
      else Nat.testBit (B / 2 ^ m) (j - m) := by
  have h := Nat.testBit_mul_pow_two_add (B / 2 ^ m)
    (Nat.mod_lt B (Nat.two_pow_pos m)) j
  rw [Nat.div_add_mod] at h
  exact h

theorem byte_left_or {B X m : Nat} (hm : m ≤ 8) (hB : B < 256) (hX : X < 2 ^ m) :
    (B / 2 ^ m * 2 ^ m ||| X) % 256 = B / 2 ^ m * 2 ^ m + X ∧
    B / 2 ^ m * 2 ^ m + X < 256 := by
  have hq2 : B / 2 ^ m < 2 ^ (8 - m) := by
    by_contra hcon
    push_neg at hcon
    have h1 : (2 : Nat) ^ m * 2 ^ (8 - m) ≤ 2 ^ m * (B / 2 ^ m) :=
      Nat.mul_le_mul_left _ hcon
    have h2 : (2 : Nat) ^ m * 2 ^ (8 - m) = 256 := by
      rw [← pow_add, show m + (8 - m) = 8 from by omega]; norm_num
    have h3 := Nat.div_add_mod B (2 ^ m)
    omega
  have hq3 : 2 ^ m * (B / 2 ^ m) ≤ 2 ^ m * (2 ^ (8 - m) - 1) :=
    Nat.mul_le_mul_left _ (by omega)
  have hq4 : 2 ^ m * (2 ^ (8 - m) - 1) + 2 ^ m = 2 ^ m * 2 ^ (8 - m) := by
    obtain ⟨c, hc⟩ : ∃ c, 2 ^ (8 - m) = c + 1 :=
      ⟨2 ^ (8 - m) - 1, by have : (1 : Nat) ≤ 2 ^ (8 - m) := Nat.one_le_two_pow; omega⟩
    rw [hc, Nat.add_sub_cancel]; ring
  have h2 : (2 : Nat) ^ m * 2 ^ (8 - m) = 256 := by
    rw [← pow_add, show m + (8 - m) = 8 from by omega]; norm_num
  have he : B / 2 ^ m * 2 ^ m = 2 ^ m * (B / 2 ^ m) := by ring
  have hlt : B / 2 ^ m * 2 ^ m + X < 256 := by omega
  refine ⟨?_, hlt⟩
  rw [he] at hlt ⊢
  rw [← Nat.mul_add_lt_is_or hX, Nat.mod_eq_of_lt hlt]

theorem byte_assemble {B V R m e : Nat} (hm : m ≤ 8) (he : e ≤ m)
    (hB : B < 256) (hV : V < 2 ^ (m - e)) (hR : R < 2 ^ e) :
    (B / 2 ^ m * 2 ^ m ||| R ||| V <<< e) % 256 =
      B / 2 ^ m * 2 ^ m + (V * 2 ^ e + R) ∧
    B / 2 ^ m * 2 ^ m + (V * 2 ^ e + R) < 256 := by
  have hRS : R ||| V <<< e = V * 2 ^ e + R := by
    rw [Nat.shiftLeft_eq, Nat.or_comm, show V * 2 ^ e = 2 ^ e * V from by ring,
      ← Nat.mul_add_lt_is_or hR V]
  have hVe : V * 2 ^ e + R < 2 ^ m := by
    have hexp : (2 : Nat) ^ (m - e) * 2 ^ e = 2 ^ m := by
      rw [← pow_add]; congr 1; omega
    have hVle : V * 2 ^ e ≤ (2 ^ (m - e) - 1) * 2 ^ e :=
      Nat.mul_le_mul_right _ (by omega)
    have hsub : (2 ^ (m - e) - 1) * 2 ^ e + 2 ^ e = 2 ^ (m - e) * 2 ^ e := by
      obtain ⟨c, hc⟩ : ∃ c, 2 ^ (m - e) = c + 1 :=
        ⟨2 ^ (m - e) - 1, by
          have : (1 : Nat) ≤ 2 ^ (m - e) := Nat.one_le_two_pow; omega⟩
      rw [hc, Nat.add_sub_cancel]; ring
    omega
  rw [Nat.or_assoc, hRS]
  exact byte_left_or hm hB hVe

theorem byte_last {B' src rem : Nat} (hB' : B' < 256) (hrem1 : 1 ≤ rem)
    (hrem8 : rem ≤ 8) :
    (B' % 2 ^ (8 - rem) ||| (src % 256) <<< (8 - rem)) % 256 =
      src % 2 ^ rem * 2 ^ (8 - rem) + B' % 2 ^ (8 - rem) ∧
    src % 2 ^ rem * 2 ^ (8 - rem) + B' % 2 ^ (8 - rem) < 256 := by
  have hR : B' % 2 ^ (8 - rem) < 2 ^ (8 - rem) := Nat.mod_lt _ (Nat.two_pow_pos _)
  have h256 : (2 : Nat) ^ (8 - rem) * 2 ^ rem = 256 := by
    rw [← pow_add, show 8 - rem + rem = 8 from by omega]; norm_num
  have hSmod : 2 ^ (8 - rem) * (src % 256) % 256 = 2 ^ (8 - rem) * (src % 2 ^ rem) := by
    conv_lhs => rw [show (256 : Nat) = 2 ^ (8 - rem) * 2 ^ rem from h256.symm]
    rw [Nat.mul_mod_mul_left, Nat.mod_mod_of_dvd src ⟨2 ^ (8 - rem), by ring⟩]
  have hsm : src % 2 ^ rem ≤ 2 ^ rem - 1 := by
    have := Nat.mod_lt src (Nat.two_pow_pos rem); omega
  have hmul : 2 ^ (8 - rem) * (src % 2 ^ rem) ≤ 2 ^ (8 - rem) * (2 ^ rem - 1) :=
    Nat.mul_le_mul_left _ hsm
  have hsub : 2 ^ (8 - rem) * (2 ^ rem - 1) + 2 ^ (8 - rem) =
      2 ^ (8 - rem) * 2 ^ rem := by
    obtain ⟨c, hc⟩ : ∃ c, 2 ^ rem = c + 1 :=
      ⟨2 ^ rem - 1, by have : (1 : Nat) ≤ 2 ^ rem := Nat.one_le_two_pow; omega⟩
    rw [hc, Nat.add_sub_cancel]; ring
  have hfit : 2 ^ (8 - rem) * (src % 2 ^ rem) + B' % 2 ^ (8 - rem) < 256 := by
    omega
  constructor
  · rw [Nat.or_comm, Nat.shiftLeft_eq,
      show src % 256 * 2 ^ (8 - rem) = 2 ^ (8 - rem) * (src % 256) from by ring,
      ← Nat.mul_add_lt_is_or hR, Nat.add_mod, hSmod,
      Nat.mod_eq_of_lt (show B' % 2 ^ (8 - rem) < 256 from by omega),
      Nat.mod_eq_of_lt hfit]
    ring
  · have : src % 2 ^ rem * 2 ^ (8 - rem) = 2 ^ (8 - rem) * (src % 2 ^ rem) := by
      ring
    omega

theorem left_mask {B s : Nat} (hB : B < 256) (hs : s < 8) :
    (if 8 - s ≠ 8 then B &&& 255 <<< (8 - s) else 0) =
      B / 2 ^ (8 - s) * 2 ^ (8 - s) := by
  by_cases h0 : s = 0
  · subst h0
    rw [if_neg (by omega)]
    simp only [Nat.sub_zero]
    rw [Nat.div_eq_of_lt (by omega), Nat.zero_mul]
  · rw [if_pos (by omega), and_shiftLeft_255 hB (by omega)]

theorem set_bits_single {buf : List Nat} (hb : ∀ x ∈ buf, x < 256)
    (src off bits : Nat) (h1 : 1 ≤ bits) (hA : off % 8 + bits ≤ 8) :
    set_bits buf src off bits =
      buf.set (off / 8)
        (buf.getD (off / 8) 0 / 2 ^ (8 - off % 8) * 2 ^ (8 - off % 8) +
         (src % 2 ^ bits * 2 ^ (8 - off % 8 - bits) +
          buf.getD (off / 8) 0 % 2 ^ (8 - off % 8 - bits))) := by
  have hB := byteD_lt hb (off / 8)
  have hs : off % 8 < 8 := Nat.mod_lt _ (by norm_num)
  simp only [set_bits]
  rw [if_neg (show ¬bits = 0 from by omega),
    if_neg (show ¬32 < bits from by omega),
    if_pos (show off % 8 + bits ≤ 8 from hA),
    left_mask hB hs]
  have hright : (if off % 8 + bits ≠ 8 then
      buf.getD (off / 8) 0 &&& cmpl32 ((255 <<< (8 - (off % 8 + bits))) % 2 ^ 32)
      else 0) = buf.getD (off / 8) 0 % 2 ^ (8 - off % 8 - bits) := by
    by_cases h8 : off % 8 + bits = 8
    · rw [if_neg (by omega), show 8 - off % 8 - bits = 0 from by omega,
        pow_zero, Nat.mod_one]
    · rw [if_pos (by omega), and_cmpl32_oct (by omega) hB,
        show 8 - (off % 8 + bits) = 8 - off % 8 - bits from by omega]
  rw [hright]
  have hv0 : (if bits ≠ 32 then
      src &&& cmpl32 ((4294967295 <<< bits) % 2 ^ 32) else src) % 256 =
      src % 2 ^ bits := by
    rw [if_pos (by omega), cmpl32_allones_shift (by omega),
      Nat.and_pow_two_sub_one_eq_mod,
      show (256 : Nat) = 2 ^ 8 from by norm_num]
    exact Nat.mod_eq_of_lt
      (lt_of_lt_of_le (Nat.mod_lt _ (Nat.two_pow_pos bits))
        (pow2_le_pow2 (by omega)))
  rw [hv0]
  congr 1
  have hasm := @byte_assemble (buf.getD (off / 8) 0) (src % 2 ^ bits)
    (buf.getD (off / 8) 0 % 2 ^ (8 - off % 8 - bits)) (8 - off % 8)
    (8 - off % 8 - bits) (by omega) (by omega) hB
    (by rw [show 8 - off % 8 - (8 - off % 8 - bits) = bits from by omega]
        exact Nat.mod_lt _ (Nat.two_pow_pos bits))
    (Nat.mod_lt _ (Nat.two_pow_pos _))
  rw [show 8 - off % 8 - bits = 8 - (off % 8 + bits) from by omega] at hasm ⊢
  exact hasm.1

theorem sum_lt_pow {V R v e : Nat} (hV : V < 2 ^ v) (hR : R < 2 ^ e) :
    V * 2 ^ e + R < 2 ^ (v + e) := by
  have hexp : (2 : Nat) ^ v * 2 ^ e = 2 ^ (v + e) := by rw [← pow_add]
  have hVle : V * 2 ^ e ≤ (2 ^ v - 1) * 2 ^ e :=
    Nat.mul_le_mul_right _ (by omega)
  have hsub : (2 ^ v - 1) * 2 ^ e + 2 ^ e = 2 ^ v * 2 ^ e := by
    obtain ⟨c, hc⟩ : ∃ c, 2 ^ v = c + 1 :=
      ⟨2 ^ v - 1, by have : (1 : Nat) ≤ 2 ^ v := Nat.one_le_two_pow; omega⟩
    rw [hc, Nat.add_sub_cancel]; ring
  omega

theorem set_bits_bufBit_single {buf : List Nat} (hb : ∀ x ∈ buf, x < 256)
    (src off bits : Nat) (h1 : 1 ≤ bits) (hA : off % 8 + bits ≤ 8)
    (hlen : off / 8 < buf.length) :
    (set_bits buf src off bits).length = buf.length ∧
    (∀ x ∈ set_bits buf src off bits, x < 256) ∧
    ∀ k, bufBit (set_bits buf src off bits) k =
      if off ≤ k ∧ k < off + bits then Nat.testBit src (bits - 1 - (k - off))
      else bufBit buf k := by
  have hB := byteD_lt hb (off / 8)
  have hs : off % 8 < 8 := Nat.mod_lt _ (by norm_num)
  rw [set_bits_single hb src off bits h1 hA]
  have hasm := @byte_assemble (buf.getD (off / 8) 0) (src % 2 ^ bits)
    (buf.getD (off / 8) 0 % 2 ^ (8 - off % 8 - bits)) (8 - off % 8)
    (8 - off % 8 - bits) (by omega) (by omega) hB
    (by rw [show 8 - off % 8 - (8 - off % 8 - bits) = bits from by omega]
        exact Nat.mod_lt _ (Nat.two_pow_pos bits))
    (Nat.mod_lt _ (Nat.two_pow_pos _))
  refine ⟨by rw [List.length_set], ?_, ?_⟩
  · intro x hx
    rcases List.mem_or_eq_of_mem_set hx with h | h
    · exact hb x h
    · subst h
      exact hasm.2
  · intro k
    simp only [bufBit]
    by_cases hkj : k / 8 = off / 8
    · rw [hkj, getD_set_self hlen]
      have hM := sum_lt_pow (Nat.mod_lt src (Nat.two_pow_pos bits))
        (Nat.mod_lt (buf.getD (off / 8) 0) (Nat.two_pow_pos (8 - off % 8 - bits)))
      rw [show bits + (8 - off % 8 - bits) = 8 - off % 8 from by omega] at hM
      rw [testBit_hi_lo _ hM]
      by_cases hp1 : 7 - k % 8 < 8 - off % 8 - bits
      · rw [if_pos (by omega),
          testBit_hi_lo _ (Nat.mod_lt (buf.getD (off / 8) 0)
            (Nat.two_pow_pos (8 - off % 8 - bits))),
          if_pos hp1, if_neg (show ¬(off ≤ k ∧ k < off + bits) from by omega),
          Nat.testBit_mod_two_pow, decide_eq_true hp1, Bool.true_and]
      · by_cases hp2 : 7 - k % 8 < 8 - off % 8
        · rw [if_pos hp2,
            testBit_hi_lo _ (Nat.mod_lt (buf.getD (off / 8) 0)
              (Nat.two_pow_pos (8 - off % 8 - bits))),
            if_neg hp1,
            if_pos (show off ≤ k ∧ k < off + bits from by omega),
            Nat.testBit_mod_two_pow,
            decide_eq_true
              (show 7 - k % 8 - (8 - off % 8 - bits) < bits from by omega),
            Bool.true_and]
          congr 1
          omega
        · rw [if_neg hp2, if_neg (show ¬(off ≤ k ∧ k < off + bits) from by omega),
            testBit_split (buf.getD (off / 8) 0) (8 - off % 8) (7 - k % 8),
            if_neg hp2]
    · rw [getD_set_ne (fun he => hkj he.symm),
        if_neg (show ¬(off ≤ k ∧ k < off + bits) from by omega)]

theorem set_bits_cross_getD {buf : List Nat} (hb : ∀ x ∈ buf, x < 256)
    (src off bits mo t rem : Nat)
    (hmo : mo = off % 8 + bits - 8) (ht : t = (mo - 1) / 8)
    (hrem : rem = mo - 8 * t)
    (h32 : bits ≤ 32) (hcross : 8 < off % 8 + bits)
    (hlen : off / 8 + t + 1 < buf.length) :
    (set_bits buf src off bits).length = buf.length ∧
    ∀ j, (set_bits buf src off bits).getD j 0 =
      if j = off / 8 then
        buf.getD (off / 8) 0 / 2 ^ (8 - off % 8) * 2 ^ (8 - off % 8) +
          (src >>> mo) % 2 ^ (8 - off % 8)
      else if off / 8 + 1 ≤ j ∧ j ≤ off / 8 + t then
        (src >>> (mo - 8 * (j - off / 8))) % 256
      else if j = off / 8 + t + 1 then
        src % 2 ^ rem * 2 ^ (8 - rem) +
          buf.getD (off / 8 + t + 1) 0 % 2 ^ (8 - rem)
      else buf.getD j 0 := by
  have hB := byteD_lt hb (off / 8)
  have hs : off % 8 < 8 := Nat.mod_lt _ (by norm_num)
  simp only [set_bits]
  rw [if_neg (show ¬bits = 0 from by omega),
    if_neg (show ¬32 < bits from by omega),
    if_neg (show ¬(off % 8 + bits ≤ 8) from by omega),
    show bits - (8 - off % 8) = mo from by omega,
    show bits - mo = 8 - off % 8 from by omega,
    cmpl32_allones_shift (show 8 - off % 8 ≤ 32 from by omega),
    Nat.and_pow_two_sub_one_eq_mod,
    left_mask hB hs]
  have hfb := byte_left_or (show 8 - off % 8 ≤ 8 from by omega) hB
    (Nat.mod_lt (src >>> mo) (Nat.two_pow_pos (8 - off % 8)))
  rw [hfb.1]
  set FB := buf.getD (off / 8) 0 / 2 ^ (8 - off % 8) * 2 ^ (8 - off % 8) +
    (src >>> mo) % 2 ^ (8 - off % 8) with hFB
  obtain ⟨hs1, hs2, hs3, hs4⟩ :=
    sbLoop_spec src mo (buf.set (off / 8) FB) (off / 8)
      (show mo ≤ 31 from by omega)
  rw [hs1, hs2, ← ht, ← hrem,
    if_pos (show 8 - rem ≠ 8 from by omega)]
  have hw2 : (sbLoop src (buf.set (off / 8) FB) (off / 8) mo).1.getD
      (off / 8 + t + 1) 0 = buf.getD (off / 8 + t + 1) 0 := by
    rw [hs4, if_neg (by omega), getD_set_ne (by omega)]
  rw [hw2,
    and_cmpl32_oct (show 8 - rem < 8 from by omega)
      (byteD_lt hb (off / 8 + t + 1))]
  have hlast := @byte_last (buf.getD (off / 8 + t + 1) 0) src rem
    (byteD_lt hb (off / 8 + t + 1))
    (show 1 ≤ rem from by omega) (show rem ≤ 8 from by omega)
  rw [hlast.1]
  constructor
  · rw [List.length_set, hs3, List.length_set]
  · intro j
    by_cases hj3 : j = off / 8 + t + 1
    · subst hj3
      rw [getD_set_self (by rw [hs3, List.length_set]; omega) _,
        if_neg (by omega), if_neg (by omega), if_pos rfl]
    · rw [getD_set_ne (fun he => hj3 he.symm), hs4]
      by_cases hj2 : off / 8 + 1 ≤ j ∧ j ≤ off / 8 + t
      · rw [if_pos (show off / 8 + 1 ≤ j ∧ j ≤ off / 8 + (mo - 1) / 8 ∧
            j < (buf.set (off / 8) FB).length from
            ⟨hj2.1, by omega, by rw [List.length_set]; omega⟩),
          if_neg (show ¬j = off / 8 from by omega), if_pos hj2]
      · rw [if_neg (show ¬(off / 8 + 1 ≤ j ∧ j ≤ off / 8 + (mo - 1) / 8 ∧
            j < (buf.set (off / 8) FB).length) from
            fun hc => hj2 ⟨hc.1, by omega⟩)]
        by_cases hj1 : j = off / 8
        · subst hj1
          rw [getD_set_self (by omega) _, if_pos rfl]
        · rw [getD_set_ne (fun he => hj1 he.symm), if_neg hj1, if_neg hj2,
            if_neg hj3]

theorem set_bits_bufBit_cross {buf : List Nat} (hb : ∀ x ∈ buf, x < 256)
    (src off bits : Nat) (h32 : bits ≤ 32) (hcross : 8 < off % 8 + bits)
    (hlen : off + bits ≤ 8 * buf.length) :
    (set_bits buf src off bits).length = buf.length ∧
    (∀ x ∈ set_bits buf src off bits, x < 256) ∧
    ∀ k, bufBit (set_bits buf src off bits) k =
      if off ≤ k ∧ k < off + bits then Nat.testBit src (bits - 1 - (k - off))
      else bufBit buf k := by
  have hs : off % 8 < 8 := Nat.mod_lt _ (by norm_num)
  obtain ⟨mo, hmo⟩ : ∃ mo, mo = off % 8 + bits - 8 := ⟨_, rfl⟩
  obtain ⟨t, ht⟩ : ∃ t, t = (mo - 1) / 8 := ⟨_, rfl⟩
  obtain ⟨rem, hrem⟩ : ∃ rem, rem = mo - 8 * t := ⟨_, rfl⟩
  obtain ⟨hL, hG⟩ :=
    set_bits_cross_getD hb src off bits mo t rem hmo ht hrem h32 hcross
      (by omega)
  refine ⟨hL, ?_, ?_⟩
  · intro x hx
    obtain ⟨i, hi, hix⟩ := List.mem_iff_getElem.mp hx
    have hgd : (set_bits buf src off bits).getD i 0 = x := by
      rw [List.getD_eq_getElem _ 0 hi, hix]
    rw [hG i] at hgd
    by_cases h1 : i = off / 8
    · rw [if_pos h1] at hgd
      have hfb := byte_left_or (show 8 - off % 8 ≤ 8 from by omega)
        (byteD_lt hb (off / 8))
        (Nat.mod_lt (src >>> mo) (Nat.two_pow_pos (8 - off % 8)))
      omega
    · rw [if_neg h1] at hgd
      by_cases h2 : off / 8 + 1 ≤ i ∧ i ≤ off / 8 + t
      · rw [if_pos h2] at hgd
        have := Nat.mod_lt (src >>> (mo - 8 * (i - off / 8)))
          (show 0 < 256 from by norm_num)
        omega
      · rw [if_neg h2] at hgd
        by_cases h3 : i = off / 8 + t + 1
        · rw [if_pos h3] at hgd
          have hlast := @byte_last (buf.getD (off / 8 + t + 1) 0) src rem
            (byteD_lt hb _) (by omega) (by omega)
          omega
        · rw [if_neg h3] at hgd
          have := byteD_lt hb i
          omega
  · intro k
    simp only [bufBit]
    rw [hG (k / 8)]
    by_cases h1 : k / 8 = off / 8
    · rw [if_pos h1]
      rw [testBit_hi_lo _
        (Nat.mod_lt (src >>> mo) (Nat.two_pow_pos (8 - off % 8)))]
      by_cases hp : 7 - k % 8 < 8 - off % 8
      · rw [if_pos hp, if_pos (show off ≤ k ∧ k < off + bits from by omega),
          Nat.testBit_mod_two_pow, decide_eq_true hp, Bool.true_and,
          Nat.testBit_shiftRight]
        congr 1
        omega
      · rw [if_neg hp, if_neg (show ¬(off ≤ k ∧ k < off + bits) from by omega),
          h1, testBit_split (buf.getD (off / 8) 0) (8 - off % 8) (7 - k % 8),
          if_neg hp]
    · rw [if_neg h1]
      by_cases h2 : off / 8 + 1 ≤ k / 8 ∧ k / 8 ≤ off / 8 + t
      · rw [if_pos h2, if_pos (show off ≤ k ∧ k < off + bits from by omega),
          show (256 : Nat) = 2 ^ 8 from by norm_num,
          Nat.testBit_mod_two_pow,
          decide_eq_true (show 7 - k % 8 < 8 from by omega), Bool.true_and,
          Nat.testBit_shiftRight]
        congr 1
        omega
      · rw [if_neg h2]
        by_cases h3 : k / 8 = off / 8 + t + 1
        · rw [if_pos h3]
          rw [testBit_hi_lo _
            (Nat.mod_lt (buf.getD (off / 8 + t + 1) 0)
              (Nat.two_pow_pos (8 - rem)))]
          by_cases hp : 7 - k % 8 < 8 - rem
          · rw [if_pos hp,
              if_neg (show ¬(off ≤ k ∧ k < off + bits) from by omega),
              Nat.testBit_mod_two_pow, decide_eq_true hp, Bool.true_and, h3]
          · rw [if_neg hp,
              if_pos (show off ≤ k ∧ k < off + bits from by omega),
              Nat.testBit_mod_two_pow,
              decide_eq_true (show 7 - k % 8 - (8 - rem) < rem from by omega),
              Bool.true_and]
            congr 1
            omega
        · rw [if_neg h3,
            if_neg (show ¬(off ≤ k ∧ k < off + bits) from by omega)]

theorem set_bits_bufBit {buf : List Nat} (hb : ∀ x ∈ buf, x < 256)
    (src off bits : Nat) (h1 : 1 ≤ bits) (h32 : bits ≤ 32)
    (hlen : off + bits ≤ 8 * buf.length) :
    (set_bits buf src off bits).length = buf.length ∧
    (∀ x ∈ set_bits buf src off bits, x < 256) ∧
    ∀ k, bufBit (set_bits buf src off bits) k =
      if off ≤ k ∧ k < off + bits then Nat.testBit src (bits - 1 - (k - off))
      else bufBit buf k := by
  by_cases hA : off % 8 + bits ≤ 8
  · exact set_bits_bufBit_single hb src off bits h1 hA (by omega)
  · exact set_bits_bufBit_cross hb src off bits h32 (by omega) hlen

theorem applyWrites_bufBit (ws : List BitField) :
    ∀ (buf : List Nat), (∀ x ∈ buf, x < 256) →
      (∀ w ∈ ws, 1 ≤ w.bits ∧ w.bits ≤ 32 ∧ w.off + w.bits ≤ 8 * buf.length) →
      (applyWrites buf ws).length = buf.length ∧
      (∀ x ∈ applyWrites buf ws, x < 256) ∧
      (∀ k, (∀ w ∈ ws, k < w.off ∨ w.off + w.bits ≤ k) →
        bufBit (applyWrites buf ws) k = bufBit buf k) := by
  induction ws with
  | nil => exact fun buf hb _ => ⟨rfl, hb, fun k _ => rfl⟩
  | cons w ws ih =>
    intro buf hb hw
    obtain ⟨hw1, hw2, hw3⟩ := hw w (List.mem_cons_self w ws)
    obtain ⟨hsL, hsB, hsK⟩ := set_bits_bufBit hb w.src w.off w.bits hw1 hw2 hw3
    have hws : ∀ w' ∈ ws, 1 ≤ w'.bits ∧ w'.bits ≤ 32 ∧
        w'.off + w'.bits ≤ 8 * (set_bits buf w.src w.off w.bits).length := by
      intro w' hw'
      obtain ⟨a, b, c⟩ := hw w' (List.mem_cons_of_mem w hw')
      exact ⟨a, b, by rw [hsL]; exact c⟩
    obtain ⟨iL, iB, iK⟩ := ih (set_bits buf w.src w.off w.bits) hsB hws
    have happ : applyWrites buf (w :: ws) =
        applyWrites (set_bits buf w.src w.off w.bits) ws := rfl
    refine ⟨by rw [happ, iL, hsL], by rw [happ]; exact iB, ?_⟩
    intro k hk
    have hno : ¬(w.off ≤ k ∧ k < w.off + w.bits) := by
      rcases hk w (List.mem_cons_self w ws) with h | h <;> omega
    rw [happ, iK k (fun w' hw' => hk w' (List.mem_cons_of_mem w hw')),
      hsK k, if_neg hno]

theorem applyWrites_window (ws : List BitField) :
    ∀ (buf : List Nat), (∀ x ∈ buf, x < 256) →
      (∀ w ∈ ws, 1 ≤ w.bits ∧ w.bits ≤ 32 ∧ w.off + w.bits ≤ 8 * buf.length) →
      ws.Pairwise disjointWins →
      ∀ w ∈ ws, ∀ j, j < w.bits →
        bufBit (applyWrites buf ws) (w.off + j) =
          Nat.testBit w.src (w.bits - 1 - j) := by
  induction ws with
  | nil => exact fun buf _ _ _ w hw => absurd hw (List.not_mem_nil w)
  | cons w0 ws ih =>
    intro buf hb hw hp w hwmem j hj
    obtain ⟨hw1, hw2, hw3⟩ := hw w0 (List.mem_cons_self w0 ws)
    obtain ⟨hsL, hsB, hsK⟩ :=
      set_bits_bufBit hb w0.src w0.off w0.bits hw1 hw2 hw3
    have hws : ∀ w' ∈ ws, 1 ≤ w'.bits ∧ w'.bits ≤ 32 ∧
        w'.off + w'.bits ≤ 8 * (set_bits buf w0.src w0.off w0.bits).length := by
      intro w' hw'
      obtain ⟨a, b, c⟩ := hw w' (List.mem_cons_of_mem w0 hw')
      exact ⟨a, b, by rw [hsL]; exact c⟩
    have happ : applyWrites buf (w0 :: ws) =
        applyWrites (set_bits buf w0.src w0.off w0.bits) ws := rfl
    rcases List.mem_cons.mp hwmem with heq | hmem
    · subst heq
      obtain ⟨aL, aB, aK⟩ :=
        applyWrites_bufBit ws (set_bits buf w.src w.off w.bits) hsB hws
      have hout : ∀ w' ∈ ws, w.off + j < w'.off ∨ w'.off + w'.bits ≤ w.off + j := by
        intro w' hw'
        have hd : w.off + w.bits ≤ w'.off ∨ w'.off + w'.bits ≤ w.off :=
          (List.pairwise_cons.mp hp).1 w' hw'
        rcases hd with h | h
        · left; omega
        · right; omega
      rw [happ, aK (w.off + j) hout, hsK, if_pos ⟨by omega, by omega⟩]
      congr 1
      omega
    · rw [happ]
      exact ih (set_bits buf w0.src w0.off w0.bits) hsB hws
        (List.pairwise_cons.mp hp).2 w hmem j hj

instance decidableDisjointWins (w₁ w₂ : BitField) :
    Decidable (disjointWins w₁ w₂) :=
  inferInstanceAs
    (Decidable (w₁.off + w₁.bits ≤ w₂.off ∨ w₂.off + w₂.bits ≤ w₁.off))

/-- C5: BitStream round-trip: for every byte buffer and every finite sequence
of `set_bits` writes at pairwise-disjoint bit windows, each window of width
1..32 lying within the buffer, calling `get_bits` at each window's offset and
width returns the low `bits` bits of the value written there, and every bit of
the buffer outside the written windows is unchanged by the writes. -/
theorem bitstream_round_trip {buf : List Nat} (hb : ∀ x ∈ buf, x < 256)
    (ws : List BitField)
    (hw : ∀ w ∈ ws, 1 ≤ w.bits ∧ w.bits ≤ 32 ∧ w.off + w.bits ≤ 8 * buf.length)
    (hdisj : ws.Pairwise disjointWins) :
    (∀ w ∈ ws, ∀ loc, get_bits (applyWrites buf ws) loc w.off w.bits =
      w.src % 2 ^ w.bits) ∧
    (∀ k, (∀ w ∈ ws, k < w.off ∨ w.off + w.bits ≤ k) →
      bufBit (applyWrites buf ws) k = bufBit buf k) := by
  obtain ⟨aL, aB, aK⟩ := applyWrites_bufBit ws buf hb hw
  refine ⟨?_, aK⟩
  intro w hwmem loc
  obtain ⟨h1, h2, h3⟩ := hw w hwmem
  rw [get_bits_spec aB loc w.off w.bits h1 h2]
  exact winVal_eq_mod _ _ _ _ (fun j hj =>
    applyWrites_window ws buf hb hw hdisj w hwmem j hj)

theorem bitstream_round_trip_witness :
    get_bits (applyWrites [0, 0, 0] [⟨171, 4, 8⟩, ⟨5, 13, 3⟩]) 0 4 8 =
      171 % 2 ^ 8 ∧
    bufBit (applyWrites [0, 0, 0] [⟨171, 4, 8⟩, ⟨5, 13, 3⟩]) 0 =
      bufBit [0, 0, 0] 0 :=
  ⟨(bitstream_round_trip (by decide) [⟨171, 4, 8⟩, ⟨5, 13, 3⟩] (by decide)
      (by decide)).1 ⟨171, 4, 8⟩ (by decide) 0,
   (bitstream_round_trip (by decide) [⟨171, 4, 8⟩, ⟨5, 13, 3⟩] (by decide)
      (by decide)).2 0 (by decide)⟩

end GRIB
